import Mathlib

/-!
SearchServer: a verification development.

A shallow embedding of the ranking and removal core of the search server
(`include/search_server.h`) together with theorems about it.

Conventions of the embedding.

* `std::map<K, V>` is an association list that a well formed map keeps in
  strictly ascending key order; iteration is list order.  `std::set<int>` is a
  list of ids.
* `int` is `Int`; no operation of the modelled code can overflow.
* `double` is `ℚ`: relevance arithmetic is exact.  `std::log` is a parameter
  `ln : ℚ → ℚ` of every function that computes a relevance, and the hash of
  the concurrent accumulator is a parameter `hash : Int → Nat`.
* A call that throws (`std::map::at` on a missing key) or dereferences an end
  iterator makes the embedded function return `none`.
* `FindAllDocuments` receives the parsed query: `ParseQuery` is defined in a
  translation unit outside the development.
-/

namespace SearchServer

/-! ## std::map as an association list -/

/-- An ordered map: the entries of a `std::map`, in iteration order. -/
abbrev Map (K V : Type) := List (K × V)

namespace Map

variable {K V : Type}

/-- The keys in iteration order. -/
def keys (m : Map K V) : List K := m.map Prod.fst

/-- The lookup `find`: the value stored under `k`, if any.  `count(k) == 0` is
`find m k = none`, and `at(k)` throws exactly when `find m k = none`. -/
def find [DecidableEq K] : Map K V → K → Option V
  | [], _ => none
  | (k', v) :: rest, k => if k' = k then some v else find rest k

/-- The member `erase(k)`: drops the entry stored under `k`. -/
def erase [DecidableEq K] (m : Map K V) (k : K) : Map K V :=
  m.filter (fun p => decide (p.1 ≠ k))

/-- In place update of the value stored under `k` (through an iterator or a
reference): `f` is applied to that value, other entries are untouched. -/
def modify [DecidableEq K] (m : Map K V) (k : K) (f : V → V) : Map K V :=
  m.map (fun p => if p.1 = k then (p.1, f p.2) else p)

/-- The statement `m[k] += v` on a `std::map<int, double>`: a missing key is
first inserted at its ordered position with the value `0`. -/
def addAt : Map Int ℚ → Int → ℚ → Map Int ℚ
  | [], k, v => [(k, 0 + v)]
  | (k', v') :: rest, k, v =>
    if k < k' then (k, 0 + v) :: (k', v') :: rest
    else if k = k' then (k', v' + v) :: rest
    else (k', v') :: addAt rest k v

/-- The member `insert(entry)` of a `std::map<int, double>`: the entry is put
at its ordered position, and an entry already stored under the key is kept. -/
def insert : Map Int ℚ → Int → ℚ → Map Int ℚ
  | [], k, v => [(k, v)]
  | (k', v') :: rest, k, v =>
    if k < k' then (k, v) :: (k', v') :: rest
    else if k = k' then (k', v') :: rest
    else (k', v') :: insert rest k v

end Map

/-! ## Data model -/

/-- Modelled from the spec: `document.h` is not among the sources; the four
statuses are those of the data model. -/
inductive DocumentStatus where
  | ACTUAL
  | IRRELEVANT
  | BANNED
  | REMOVED
  deriving DecidableEq

/-- Modelled from the spec: `document.h` is not among the sources; a result
entry is built as `Document(id, relevance, rating)`. -/
structure Document where
  id : Int
  relevance : ℚ
  rating : Int
  deriving DecidableEq

/-- The private record `SearchServer::DocumentData`. -/
structure DocumentData where
  rating : Int
  status : DocumentStatus
  text_ : String
  deriving DecidableEq

/-- The private record `SearchServer::Query`, as produced by `ParseQuery`. -/
structure Query where
  plus_words : List String
  minus_words : List String
  deriving DecidableEq

/-- The data members of `class SearchServer`. -/
structure State where
  document_ids_ : List Int
  documents_ : Map Int DocumentData
  stop_words_ : List String
  word_to_document_freqs_ : Map String (Map Int ℚ)
  document_to_word_freqs_ : Map Int (Map String ℚ)
  deriving DecidableEq

/-- A caller supplied `DocumentPredicate` over (id, status, rating). -/
abbrev DocumentPredicate := Int → DocumentStatus → Int → Bool

/-- The constant `MAX_RESULT_DOCUMENT_COUNT`. -/
def MAX_RESULT_DOCUMENT_COUNT : Nat := 5

/-- The constant `INACCURACY_OF_COMPARISON`, 1e-6. -/
def INACCURACY_OF_COMPARISON : ℚ := 1 / 1000000

/-! ## Relevance engine, sequential -/

/-- Modelled from the spec: `GetDocumentCount` is defined in `search_server.cpp`,
which is not among the sources; the count reflects the stored documents. -/
def GetDocumentCount (s : State) : Nat := s.documents_.length

/-- Modelled from the spec: `ComputeWordInverseDocumentFreq` is defined in
`search_server.cpp`, which is not among the sources; the idf of a word is
ln(total document count ÷ number of documents containing the word). -/
def ComputeWordInverseDocumentFreq (ln : ℚ → ℚ) (s : State) (word : String) : ℚ :=
  ln ((GetDocumentCount s : ℚ) /
    ((((Map.find s.word_to_document_freqs_ word).getD []).length : Nat) : ℚ))

/-- The inner loop of the plus pass: every (document_id, term_freq) entry of
one posting list is looked up in `documents_` (`at` throws when the id has no
metadata) and, when the predicate accepts it, added to the accumulator. -/
def accumulateWord (s : State) (pred : DocumentPredicate) (idf : ℚ) :
    Map Int ℚ → Map Int ℚ → Option (Map Int ℚ)
  | [], rel => some rel
  | (document_id, term_freq) :: rest, rel =>
    match Map.find s.documents_ document_id with
    | none => none
    | some data =>
      accumulateWord s pred idf rest
        (if pred document_id data.status data.rating
         then Map.addAt rel document_id (term_freq * idf) else rel)

/-- The loop over `query.plus_words` of `FindAllDocuments`. -/
def plusPass (ln : ℚ → ℚ) (s : State) (pred : DocumentPredicate) :
    List String → Map Int ℚ → Option (Map Int ℚ)
  | [], rel => some rel
  | word :: rest, rel =>
    match Map.find s.word_to_document_freqs_ word with
    | none => plusPass ln s pred rest rel
    | some posting =>
      match accumulateWord s pred (ComputeWordInverseDocumentFreq ln s word) posting rel with
      | none => none
      | some rel' => plusPass ln s pred rest rel'

/-- Erases every id of one posting list from the accumulator. -/
def eraseAll (rel : Map Int ℚ) : Map Int ℚ → Map Int ℚ
  | [] => rel
  | (document_id, _) :: rest => eraseAll (Map.erase rel document_id) rest

/-- The loop over `query.minus_words` of the sequential `FindAllDocuments`. -/
def minusPass (s : State) : List String → Map Int ℚ → Map Int ℚ
  | [], rel => rel
  | word :: rest, rel =>
    match Map.find s.word_to_document_freqs_ word with
    | none => minusPass s rest rel
    | some posting => minusPass s rest (eraseAll rel posting)

/-- The result construction: one `Document(id, relevance, rating)` per entry
of the accumulator, in its iteration order; `documents_.at` may throw. -/
def buildResult (s : State) : Map Int ℚ → Option (List Document)
  | [] => some []
  | (document_id, relevance) :: rest =>
    match Map.find s.documents_ document_id with
    | none => none
    | some data =>
      match buildResult s rest with
      | none => none
      | some docs => some (⟨document_id, relevance, data.rating⟩ :: docs)

/-- The sequential `SearchServer::FindAllDocuments(raw_query, predicate)`,
from the parsed query on. -/
def FindAllDocuments (ln : ℚ → ℚ) (s : State) (query : Query)
    (pred : DocumentPredicate) : Option (List Document) :=
  match plusPass ln s pred query.plus_words [] with
  | none => none
  | some rel => buildResult s (minusPass s query.minus_words rel)

/-! ## Concurrent accumulator and the parallel relevance engine -/

/-- Modelled from the spec: `concurrent_map.h` is not among the sources.  The
accumulator is a fixed number of partitions, each an ordered map; a key is
routed to partition `hash key % B`. -/
structure ConcurrentMap where
  buckets : List (Map Int ℚ)
  deriving DecidableEq

namespace ConcurrentMap

/-- Modelled from the spec: the constructor `ConcurrentMap(bucket_count)`,
with every partition empty. -/
def create (bucket_count : Nat) : ConcurrentMap := ⟨List.replicate bucket_count []⟩

/-- Applies `f` to the partition at position `i`. -/
def modifyBucket (f : Map Int ℚ → Map Int ℚ) : List (Map Int ℚ) → Nat → List (Map Int ℚ)
  | [], _ => []
  | b :: rest, 0 => f b :: rest
  | b :: rest, i + 1 => b :: modifyBucket f rest i

/-- Modelled from the spec: `Erase(key)` locks the owning partition and
removes the key if present. -/
def Erase (hash : Int → Nat) (cm : ConcurrentMap) (key : Int) : ConcurrentMap :=
  ⟨modifyBucket (fun b => Map.erase b key) cm.buckets (hash key % cm.buckets.length)⟩

/-- Modelled from the spec: `cm[key].ref_to_value += v`, scoped exclusive access
to the slot of `key` in its partition, creating a zero entry if absent. -/
def addAt (hash : Int → Nat) (cm : ConcurrentMap) (key : Int) (v : ℚ) : ConcurrentMap :=
  ⟨modifyBucket (fun b => Map.addAt b key v) cm.buckets (hash key % cm.buckets.length)⟩

/-- Modelled from the spec: `BuildOrdinaryMap()` merges the entries of every
partition, in turn, into a single ordered map. -/
def BuildOrdinaryMap (cm : ConcurrentMap) : Map Int ℚ :=
  cm.buckets.foldl (fun acc b => b.foldl (fun acc p => Map.insert acc p.1 p.2) acc) []

end ConcurrentMap

/-- The body of the minus pass for one posting list: `Erase` of every id. -/
def eraseAllPar (hash : Int → Nat) (cm : ConcurrentMap) : Map Int ℚ → ConcurrentMap
  | [] => cm
  | (document_id, _) :: rest => eraseAllPar hash (ConcurrentMap.Erase hash cm document_id) rest

/-- The first `for_each` of the parallel `FindAllDocuments`, over
`query.minus_words`.  The words are taken in list order, one of the schedules
the execution policy admits. -/
def minusPassPar (hash : Int → Nat) (s : State) : List String → ConcurrentMap → ConcurrentMap
  | [], cm => cm
  | word :: rest, cm =>
    match Map.find s.word_to_document_freqs_ word with
    | none => minusPassPar hash s rest cm
    | some posting => minusPassPar hash s rest (eraseAllPar hash cm posting)

/-- The body of the plus pass for one posting list, on the accumulator. -/
def accumulateWordPar (hash : Int → Nat) (s : State) (pred : DocumentPredicate) (idf : ℚ) :
    Map Int ℚ → ConcurrentMap → Option ConcurrentMap
  | [], cm => some cm
  | (document_id, term_freq) :: rest, cm =>
    match Map.find s.documents_ document_id with
    | none => none
    | some data =>
      accumulateWordPar hash s pred idf rest
        (if pred document_id data.status data.rating
         then ConcurrentMap.addAt hash cm document_id (term_freq * idf) else cm)

/-- The second `for_each` of the parallel `FindAllDocuments`, over
`query.plus_words`, in list order. -/
def plusPassPar (ln : ℚ → ℚ) (hash : Int → Nat) (s : State) (pred : DocumentPredicate) :
    List String → ConcurrentMap → Option ConcurrentMap
  | [], cm => some cm
  | word :: rest, cm =>
    match Map.find s.word_to_document_freqs_ word with
    | none => plusPassPar ln hash s pred rest cm
    | some posting =>
      match accumulateWordPar hash s pred (ComputeWordInverseDocumentFreq ln s word)
          posting cm with
      | none => none
      | some cm' => plusPassPar ln hash s pred rest cm'

/-- The overload `SearchServer::FindAllDocuments(parallel_policy, raw_query,
predicate)`, from the parsed query on: the minus pass on a fresh accumulator of
16 partitions, then the plus pass, then the snapshot and the result list. -/
def FindAllDocumentsPar (ln : ℚ → ℚ) (hash : Int → Nat) (s : State) (query : Query)
    (pred : DocumentPredicate) : Option (List Document) :=
  match plusPassPar ln hash s pred query.plus_words
      (minusPassPar hash s query.minus_words (ConcurrentMap.create 16)) with
  | none => none
  | some cm => buildResult s (ConcurrentMap.BuildOrdinaryMap cm)

/-! ## Top-K selector -/

/-- The two execution policies the server is called with. -/
inductive ExecutionPolicy where
  | seq
  | par
  deriving DecidableEq

/-- Overload resolution of `FindAllDocuments(policy, raw_query, predicate)`. -/
def FindAllDocumentsWith (ln : ℚ → ℚ) (hash : Int → Nat) (policy : ExecutionPolicy)
    (s : State) (query : Query) (pred : DocumentPredicate) : Option (List Document) :=
  match policy with
  | ExecutionPolicy.seq => FindAllDocuments ln s query pred
  | ExecutionPolicy.par => FindAllDocumentsPar ln hash s query pred

/-- The comparator `FindTopDocuments` hands to `std::sort`. -/
def compareDocuments (lhs rhs : Document) : Bool :=
  if |lhs.relevance - rhs.relevance| < INACCURACY_OF_COMPARISON then
    decide (lhs.rating > rhs.rating)
  else
    decide (lhs.relevance > rhs.relevance)

/-- Insertion of `x` before the first element it must precede. -/
def orderedInsert {α : Type} (comp : α → α → Bool) (x : α) : List α → List α
  | [] => [x]
  | y :: ys => if comp x y then x :: y :: ys else y :: orderedInsert comp x ys

/-- The library call `std::sort(first, last, comp)`, as an insertion sort.  The
theorems below use of it only what `std::sort` guarantees: the output is a
rearrangement of the input, ordered by `comp` when `comp` is a strict weak
ordering of the elements. -/
def sort {α : Type} (comp : α → α → Bool) : List α → List α
  | [] => []
  | x :: xs => orderedInsert comp x (sort comp xs)

/-- The member `SearchServer::FindTopDocuments(policy, raw_query, predicate)`,
from the parsed query on. -/
def FindTopDocuments (ln : ℚ → ℚ) (hash : Int → Nat) (policy : ExecutionPolicy)
    (s : State) (query : Query) (pred : DocumentPredicate) : Option (List Document) :=
  match FindAllDocumentsWith ln hash policy s query pred with
  | none => none
  | some matched_documents =>
    let sorted := sort compareDocuments matched_documents
    some (if sorted.length > MAX_RESULT_DOCUMENT_COUNT
          then sorted.take MAX_RESULT_DOCUMENT_COUNT else sorted)

/-! ## Document remover -/

/-- The `for_each` of `RemoveDocument` over the words of the removed document:
`find` the posting list of each word and erase the id from it.  A word that
`find` does not locate yields the end iterator, whose dereference is undefined:
`none`. -/
def erasePostings (document_id : Int) :
    List String → Map String (Map Int ℚ) → Option (Map String (Map Int ℚ))
  | [], fwd => some fwd
  | word :: rest, fwd =>
    match Map.find fwd word with
    | none => none
    | some _ =>
      erasePostings document_id rest
        (Map.modify fwd word (fun posting => Map.erase posting document_id))

/-- The member `SearchServer::RemoveDocument(policy, document_id)`. -/
def RemoveDocument (s : State) (document_id : Int) : Option State :=
  match Map.find s.document_to_word_freqs_ document_id with
  | none => some s
  | some word_freqs =>
    match erasePostings document_id (Map.keys word_freqs) s.word_to_document_freqs_ with
    | none => none
    | some fwd =>
      some { s with
        word_to_document_freqs_ := fwd
        documents_ := Map.erase s.documents_ document_id
        document_ids_ := s.document_ids_.filter (fun d => decide (d ≠ document_id))
        document_to_word_freqs_ := Map.erase s.document_to_word_freqs_ document_id }

/-! ## Notions used by the statements -/

/-- The posting list of a word in the forward index: empty when the word is
not a key. -/
def postingList (s : State) (word : String) : Map Int ℚ :=
  (Map.find s.word_to_document_freqs_ word).getD []

/-- The term frequency the forward index stores for a word and a document. -/
def termFreq (s : State) (word : String) (document_id : Int) : ℚ :=
  (Map.find (postingList s word) document_id).getD 0

/-- The predicate evaluated on the stored (id, status, rating) of a document;
`false` for an id without metadata. -/
def accepts (s : State) (pred : DocumentPredicate) (document_id : Int) : Bool :=
  match Map.find s.documents_ document_id with
  | none => false
  | some data => pred document_id data.status data.rating

/-- The value an accumulator holds for a key, `0` when the key is absent. -/
def valueAt (m : Map Int ℚ) (k : Int) : ℚ := (Map.find m k).getD 0

/-- The precondition of `std::sort`, on the elements of `l`: the comparator is
irreflexive, transitive, and its incomparability is transitive. -/
def StrictWeakOn {α : Type} (comp : α → α → Bool) (l : List α) : Prop :=
  (∀ a ∈ l, comp a a = false) ∧
  (∀ a ∈ l, ∀ b ∈ l, ∀ c ∈ l, comp a b = true → comp b c = true → comp a c = true) ∧
  (∀ a ∈ l, ∀ b ∈ l, ∀ c ∈ l, comp a b = false → comp b a = false →
    comp b c = false → comp c b = false → comp a c = false ∧ comp c a = false)

/-- The ranking of two results as the comparator of `FindTopDocuments` fixes it
for a result `d` placed before a result `e`: `d` has the greater relevance when
the relevances differ by at least 1e-6, and a rating at least as high when they
differ by less. -/
def RankedBefore (d e : Document) : Prop :=
  (INACCURACY_OF_COMPARISON ≤ |d.relevance - e.relevance| → d.relevance > e.relevance) ∧
  (|d.relevance - e.relevance| < INACCURACY_OF_COMPARISON → d.rating ≥ e.rating)

/-- The ranking of a result `d` placed before a result `e` in a list that is
non-increasing in relevance, with non-increasing rating among relevances that
differ by less than 1e-6. -/
def NonIncreasing (d e : Document) : Prop :=
  d.relevance ≥ e.relevance ∧
  (|d.relevance - e.relevance| < INACCURACY_OF_COMPARISON → d.rating ≥ e.rating)

/-- An id is absent from the server: never added, or removed.  It is neither
in the id set, nor a key of the metadata, nor a key of the backward index, nor
in a posting list of the forward index. -/
def Absent (s : State) (document_id : Int) : Prop :=
  document_id ∉ s.document_ids_ ∧
  Map.find s.documents_ document_id = none ∧
  Map.find s.document_to_word_freqs_ document_id = none ∧
  ∀ w, document_id ∉ Map.keys (postingList s w)

/-- The server with stop word "and" after `AddDocument(1, "and", ACTUAL, {5})`:
the document has no indexed word, so neither index has an entry for it. -/
def wordlessServer : State :=
  { document_ids_ := [1]
    documents_ := [(1, ⟨5, DocumentStatus.ACTUAL, "and"⟩)]
    stop_words_ := ["and"]
    word_to_document_freqs_ := []
    document_to_word_freqs_ := [] }

/-- The server `petsServer` after `RemoveDocument(1)`. -/
def petsServerWithout1 : State :=
  { document_ids_ := [2]
    documents_ := [(2, ⟨3, DocumentStatus.ACTUAL, "dog bird"⟩)]
    stop_words_ := ["and"]
    word_to_document_freqs_ :=
      [("bird", [(2, 1 / 2)]), ("cat", []), ("dog", [(2, 1 / 2)])]
    document_to_word_freqs_ := [(2, [("bird", 1 / 2), ("dog", 1 / 2)])] }

/-! ## Concrete servers used by the examples -/

/-- Values of `std::log`, to seven decimals, at the arguments the examples
below evaluate it at: ln 1 = 0, ln 2, ln (3/2) and ln (4/3). -/
def lnTable (x : ℚ) : ℚ :=
  if x = 2 then 6931472 / 10000000
  else if x = 3 / 2 then 4054651 / 10000000
  else if x = 4 / 3 then 2876821 / 10000000
  else 0

/-- The hash of an id used by the examples: the id itself. -/
def idHash (key : Int) : Nat := key.toNat

/-- The server of the example of the specification: stop word "and",
documents (1, "cat and dog", ACTUAL, [5]) and (2, "dog bird", ACTUAL, [3]). -/
def petsServer : State :=
  { document_ids_ := [1, 2]
    documents_ := [(1, ⟨5, DocumentStatus.ACTUAL, "cat and dog"⟩),
                   (2, ⟨3, DocumentStatus.ACTUAL, "dog bird"⟩)]
    stop_words_ := ["and"]
    word_to_document_freqs_ :=
      [("bird", [(2, 1 / 2)]), ("cat", [(1, 1 / 2)]), ("dog", [(1, 1 / 2), (2, 1 / 2)])]
    document_to_word_freqs_ :=
      [(1, [("cat", 1 / 2), ("dog", 1 / 2)]), (2, [("bird", 1 / 2), ("dog", 1 / 2)])] }

/-- The predicate that accepts every document. -/
def anyDocument : DocumentPredicate := fun _ _ _ => true

/-- A server of four documents whose relevances for the word "a" lie close to
one another: the term frequencies of "a" in documents 1, 2 and 3 are
250000/500000, 250001/500000 and 250002/500000, the ratings 3, 2 and 1. -/
def nearTieServer : State :=
  { document_ids_ := [1, 2, 3, 4]
    documents_ := [(1, ⟨3, DocumentStatus.ACTUAL, ""⟩), (2, ⟨2, DocumentStatus.ACTUAL, ""⟩),
                   (3, ⟨1, DocumentStatus.ACTUAL, ""⟩), (4, ⟨0, DocumentStatus.ACTUAL, "b"⟩)]
    stop_words_ := []
    word_to_document_freqs_ :=
      [("a", [(1, 1 / 2), (2, 250001 / 500000), (3, 125001 / 250000)]),
       ("b", [(1, 1 / 2), (2, 249999 / 500000), (3, 124999 / 250000), (4, 1)])]
    document_to_word_freqs_ :=
      [(1, [("a", 1 / 2), ("b", 1 / 2)]),
       (2, [("a", 250001 / 500000), ("b", 249999 / 500000)]),
       (3, [("a", 125001 / 250000), ("b", 124999 / 250000)]),
       (4, [("b", 1)])] }

/-- The predicate that accepts the documents of id at most 2. -/
def firstTwo : DocumentPredicate := fun id _ _ => decide (id ≤ 2)

/-- A server of eight documents, six of which contain the word "a", with term
frequencies 1, 1/2, 1/3, 1/4, 1/5 and 1/6. -/
def eightServer : State :=
  { document_ids_ := [1, 2, 3, 4, 5, 6, 7, 8]
    documents_ := [(1, ⟨1, DocumentStatus.ACTUAL, ""⟩), (2, ⟨2, DocumentStatus.ACTUAL, ""⟩),
                   (3, ⟨3, DocumentStatus.ACTUAL, ""⟩), (4, ⟨4, DocumentStatus.ACTUAL, ""⟩),
                   (5, ⟨5, DocumentStatus.ACTUAL, ""⟩), (6, ⟨6, DocumentStatus.ACTUAL, ""⟩),
                   (7, ⟨7, DocumentStatus.ACTUAL, ""⟩), (8, ⟨8, DocumentStatus.ACTUAL, ""⟩)]
    stop_words_ := []
    word_to_document_freqs_ :=
      [("a", [(1, 1), (2, 1 / 2), (3, 1 / 3), (4, 1 / 4), (5, 1 / 5), (6, 1 / 6)]),
       ("b", [(2, 1 / 2), (3, 2 / 3), (4, 3 / 4), (5, 4 / 5), (6, 5 / 6), (7, 1), (8, 1)])]
    document_to_word_freqs_ :=
      [(1, [("a", 1)]), (2, [("a", 1 / 2), ("b", 1 / 2)]), (3, [("a", 1 / 3), ("b", 2 / 3)]),
       (4, [("a", 1 / 4), ("b", 3 / 4)]), (5, [("a", 1 / 5), ("b", 4 / 5)]),
       (6, [("a", 1 / 6), ("b", 5 / 6)]), (7, [("b", 1)]), (8, [("b", 1)])] }

/-! ## Notions used by the statements on removal -/

/-- Modelled from the spec: `GetWordFrequencies` is defined in
`search_server.cpp`, which is not among the sources; it returns the
backward-index entry of the document, or an empty map if it is absent. -/
def GetWordFrequencies (s : State) (document_id : Int) : Map String ℚ :=
  (Map.find s.document_to_word_freqs_ document_id).getD []

/-- Forward/backward consistency: a word maps to a document in the forward
index exactly when the document maps to the word in the backward index, with
the same term frequency. -/
def Consistent (s : State) : Prop :=
  ∀ (w : String) (d : Int) (tf : ℚ),
    Map.find (postingList s w) d = some tf ↔ Map.find (GetWordFrequencies s d) w = some tf

/-! ## Overloads of FindTopDocuments -/

/-- The overload `FindTopDocuments(policy, raw_query, status)`: the search with
the predicate `new_status == status`. -/
def FindTopDocumentsByStatus (ln : ℚ → ℚ) (hash : Int → Nat) (policy : ExecutionPolicy)
    (s : State) (query : Query) (status : DocumentStatus) : Option (List Document) :=
  FindTopDocuments ln hash policy s query
    (fun _ new_status _ => decide (new_status = status))

/-- The overload `FindTopDocuments(policy, raw_query)`: the search among the
documents of status `ACTUAL`. -/
def FindTopDocumentsActual (ln : ℚ → ℚ) (hash : Int → Nat) (policy : ExecutionPolicy)
    (s : State) (query : Query) : Option (List Document) :=
  FindTopDocumentsByStatus ln hash policy s query DocumentStatus.ACTUAL

/-! ## Construction of a server -/

/-- The exceptions the server throws. -/
inductive Exception where
  | invalid_argument
  | out_of_range
  deriving DecidableEq

/-- The member `emplace` of a `std::set<std::string>`: ordered insertion, a
string already in the set is not inserted again. -/
def emplace : List String → String → List String
  | [], str => [str]
  | x :: rest, str =>
    if str < x then str :: x :: rest
    else if str = x then x :: rest
    else x :: emplace rest str

/-- The function `MakeUniqueNonEmptyStrings` of `string_processing.h`: the set
of the strings of the container that are not empty. -/
def MakeUniqueNonEmptyStrings (strings : List String) : List String :=
  strings.foldl
    (fun non_empty_strings str =>
      if str ≠ "" then emplace non_empty_strings str else non_empty_strings) []

/-- Modelled from the spec: `IsValidWord` is defined in `search_server.cpp`,
which is not among the sources; a word is invalid when it contains a control
character (a character of code below 32). -/
def IsValidWord (word : String) : Bool :=
  word.toList.all (fun c => decide (32 ≤ c.toNat))

/-- The constructor `SearchServer::SearchServer(const StringContainer&)`, with
the validity test of words as a parameter: the stop words are the unique
non-empty strings, and the construction throws `invalid_argument` when one of
them is not valid. -/
def construct (valid : String → Bool) (stop_words : List String) : Except Exception State :=
  let stop_words_ := MakeUniqueNonEmptyStrings stop_words
  if !(stop_words_.all valid) then
    Except.error Exception.invalid_argument
  else
    Except.ok
      { document_ids_ := []
        documents_ := []
        stop_words_ := stop_words_
        word_to_document_freqs_ := []
        document_to_word_freqs_ := [] }

/-! ## Batch query processing -/

/-- Modelled from the spec: the overload `FindTopDocuments(raw_query)` is
defined in `search_server.cpp`, which is not among the sources; it is the
sequential search without filter.  `ParseQuery`, of the same file, is a
parameter: it returns the parsed query, or throws. -/
def FindTopDocumentsRaw (ParseQuery : String → Option Query) (ln : ℚ → ℚ) (hash : Int → Nat)
    (s : State) (raw_query : String) : Option (List Document) :=
  match ParseQuery raw_query with
  | none => none
  | some query => FindTopDocumentsActual ln hash ExecutionPolicy.seq s query

/-- The library call `std::transform(par, first, last, d_first, op)`: the
result of `op` on the element at position `i` of the input is written at
position `i` of the output, here from the first position on. -/
def transform (op : String → Option (List Document)) :
    List String → Nat → List (List Document) → Option (List (List Document))
  | [], _, answers => some answers
  | query :: rest, i, answers =>
    match op query with
    | none => none
    | some documents => transform op rest (i + 1) (answers.set i documents)

/-- The function `ProcessQueries` of `process_queries.cpp`. -/
def ProcessQueries (ParseQuery : String → Option Query) (ln : ℚ → ℚ) (hash : Int → Nat)
    (search_server : State) (queries : List String) : Option (List (List Document)) :=
  transform (FindTopDocumentsRaw ParseQuery ln hash search_server) queries 0
    (List.replicate queries.length [])

/-- The function `ProcessQueriesJoined` of `process_queries.cpp`: the answers
of `ProcessQueries` are appended, one after the other, to an empty deque. -/
def ProcessQueriesJoined (ParseQuery : String → Option Query) (ln : ℚ → ℚ)
    (hash : Int → Nat) (search_server : State) (queries : List String) :
    Option (List Document) :=
  match ProcessQueries ParseQuery ln hash search_server queries with
  | none => none
  | some answers => some (answers.foldl (fun results doc => results ++ doc) [])

/-- A parser for the examples: the raw query is a single plus word. -/
def singleWordQuery (raw_query : String) : Option Query := some ⟨[raw_query], []⟩

/-! ## Removal of duplicates -/

/-- The set of the words of a document, as `RemoveDuplicates` builds it: the
keys of `GetWordFrequencies(document_id)`, inserted into a
`std::set<std::string_view>`. -/
def wordSet (s : State) (document_id : Int) : Finset String :=
  (Map.keys (GetWordFrequencies s document_id)).toFinset

/-- The first loop of `RemoveDuplicates`, over the ids of the server in
iteration order: `docs` is the set of the word sets seen so far, and the ids
whose word set has been seen are collected, in order, as duplicates. -/
def findDuplicates (s : State) : List Int → Finset (Finset String) → List Int
  | [], _ => []
  | document_id :: rest, docs =>
    if wordSet s document_id ∉ docs then
      findDuplicates s rest (insert (wordSet s document_id) docs)
    else
      document_id :: findDuplicates s rest docs

/-- The second loop of `RemoveDuplicates`: `RemoveDocument` of each duplicate. -/
def removeEach : List Int → State → Option State
  | [], s => some s
  | id :: rest, s =>
    match RemoveDocument s id with
    | none => none
    | some s' => removeEach rest s'

/-- The function `RemoveDuplicates` of `remove_duplicates.cpp`. -/
def RemoveDuplicates (search_server : State) : Option State :=
  removeEach (findDuplicates search_server search_server.document_ids_ ∅) search_server

/-- The server of the specification example with a third document,
(3, "bird dog", ACTUAL, [4]), that has the words of document 2. -/
def duplicateServer : State :=
  { document_ids_ := [1, 2, 3]
    documents_ := [(1, ⟨5, DocumentStatus.ACTUAL, "cat and dog"⟩),
                   (2, ⟨3, DocumentStatus.ACTUAL, "dog bird"⟩),
                   (3, ⟨4, DocumentStatus.ACTUAL, "bird dog"⟩)]
    stop_words_ := ["and"]
    word_to_document_freqs_ :=
      [("bird", [(2, 1 / 2), (3, 1 / 2)]), ("cat", [(1, 1 / 2)]),
       ("dog", [(1, 1 / 2), (2, 1 / 2), (3, 1 / 2)])]
    document_to_word_freqs_ :=
      [(1, [("cat", 1 / 2), ("dog", 1 / 2)]), (2, [("bird", 1 / 2), ("dog", 1 / 2)]),
       (3, [("bird", 1 / 2), ("dog", 1 / 2)])] }

/-! # Theorems -/

/-! ## Lemmas on ordered maps -/

namespace Map

theorem mem_keys_erase {K V : Type} [DecidableEq K] (m : Map K V) (k k' : K) :
    k' ∈ keys (erase m k) ↔ k' ∈ keys m ∧ k' ≠ k := by
  simp only [keys, erase, List.mem_map, List.mem_filter, decide_eq_true_eq]
  constructor
  · rintro ⟨p, ⟨hp, hne⟩, rfl⟩
    exact ⟨⟨p, hp, rfl⟩, hne⟩
  · rintro ⟨⟨p, hp, rfl⟩, hne⟩
    exact ⟨p, ⟨hp, hne⟩, rfl⟩

theorem find_erase {K V : Type} [DecidableEq K] (m : Map K V) (k k' : K) :
    find (erase m k) k' = if k' = k then none else find m k' := by
  induction m with
  | nil => simp [erase, find]
  | cons p rest ih =>
    obtain ⟨a, b⟩ := p
    by_cases hak : a = k
    · have : erase ((a, b) :: rest) k = erase rest k := by simp [erase, hak]
      rw [this, ih]
      by_cases hk : k' = k
      · simp [hk]
      · have : a ≠ k' := fun h => hk (h ▸ hak)
        simp [hk, find, this]
    · have : erase ((a, b) :: rest) k = (a, b) :: erase rest k := by simp [erase, hak]
      rw [this]
      simp only [find]
      by_cases hak' : a = k'
      · have : k' ≠ k := fun h => hak (hak'.trans h)
        simp [hak', this]
      · simp [hak', ih]

theorem find_eq_none_iff {K V : Type} [DecidableEq K] (m : Map K V) (k : K) :
    find m k = none ↔ k ∉ keys m := by
  induction m with
  | nil => simp [find, keys]
  | cons p rest ih =>
    obtain ⟨a, b⟩ := p
    by_cases h : a = k
    · simp [find, keys, h]
    · have h' : k ≠ a := fun e => h e.symm
      simpa [find, keys, h, h'] using ih

theorem find_isSome_iff {K V : Type} [DecidableEq K] (m : Map K V) (k : K) :
    (∃ v, find m k = some v) ↔ k ∈ keys m := by
  rw [← not_iff_not, ← find_eq_none_iff]
  cases find m k <;> simp

theorem mem_of_find {K V : Type} [DecidableEq K] (m : Map K V) (k : K) (v : V)
    (h : find m k = some v) : (k, v) ∈ m := by
  induction m with
  | nil => simp [find] at h
  | cons p rest ih =>
    obtain ⟨a, b⟩ := p
    by_cases hak : a = k
    · simp [find, hak] at h
      simp [hak, h]
    · simp [find, hak] at h
      exact List.mem_cons_of_mem _ (ih h)

theorem find_of_mem {K V : Type} [DecidableEq K] (m : Map K V) (k : K) (v : V)
    (hnd : (keys m).Nodup) (h : (k, v) ∈ m) : find m k = some v := by
  induction m with
  | nil => simp at h
  | cons p rest ih =>
    obtain ⟨a, b⟩ := p
    simp only [keys, List.map_cons, List.nodup_cons] at hnd
    rcases List.mem_cons.mp h with heq | hmem
    · cases heq
      simp [find]
    · have hne : a ≠ k := by
        rintro rfl
        exact hnd.1 (List.mem_map.mpr ⟨(a, v), hmem, rfl⟩)
      simp only [find, hne, if_false]
      exact ih hnd.2 hmem

theorem mem_keys_addAt (m : Map Int ℚ) (k : Int) (v : ℚ) (k' : Int) :
    k' ∈ keys (addAt m k v) ↔ k' = k ∨ k' ∈ keys m := by
  induction m with
  | nil => simp [addAt, keys]
  | cons p rest ih =>
    obtain ⟨a, b⟩ := p
    simp only [addAt]
    split_ifs with h1 h2
    · simp [keys]
    · subst h2
      simp [keys]
    · simp only [keys, List.map_cons, List.mem_cons] at ih ⊢
      rw [ih]
      tauto

theorem sorted_addAt (m : Map Int ℚ) (k : Int) (v : ℚ)
    (h : (keys m).Pairwise (· < ·)) : (keys (addAt m k v)).Pairwise (· < ·) := by
  induction m with
  | nil => simp [addAt, keys]
  | cons p rest ih =>
    obtain ⟨a, b⟩ := p
    simp only [keys, List.map_cons, List.pairwise_cons] at h
    simp only [addAt]
    split_ifs with h1 h2
    · simp only [keys, List.map_cons, List.pairwise_cons, List.mem_cons]
      refine ⟨?_, h⟩
      rintro x (rfl | hx)
      · exact h1
      · exact lt_trans h1 (h.1 x hx)
    · simpa [keys] using h
    · have hlt : a < k := lt_of_le_of_ne (not_lt.mp h1) (fun e => h2 e.symm)
      have ih' := ih h.2
      simp only [keys, List.map_cons, List.pairwise_cons]
      refine ⟨?_, ih'⟩
      intro x hx
      rcases (mem_keys_addAt rest k v x).mp hx with rfl | hx'
      · exact hlt
      · exact h.1 x hx'

theorem sorted_erase (m : Map Int ℚ) (k : Int)
    (h : (keys m).Pairwise (· < ·)) : (keys (erase m k)).Pairwise (· < ·) := by
  simp only [keys, erase] at h ⊢
  exact (List.pairwise_map.mpr ((List.pairwise_map.mp h).filter _))

theorem find_addAt (m : Map Int ℚ) (k : Int) (v : ℚ) (k' : Int)
    (h : (keys m).Pairwise (· < ·)) :
    find (addAt m k v) k' = if k' = k then some ((find m k).getD 0 + v) else find m k' := by
  induction m with
  | nil =>
    by_cases hk : k' = k
    · simp [addAt, find, hk]
    · have : k ≠ k' := fun e => hk e.symm
      simp [addAt, find, hk, this]
  | cons p rest ih =>
    obtain ⟨a, b⟩ := p
    simp only [keys, List.map_cons, List.pairwise_cons] at h
    simp only [addAt]
    split_ifs with h1 h2 h3 h4 h5
    · -- k < a, k' = k
      subst h2
      have hne : a ≠ k' := ne_of_gt h1
      have hnone : find rest k' = none := by
        rw [find_eq_none_iff]
        intro hmem
        exact absurd (h.1 k' hmem) (not_lt.mpr (le_of_lt h1))
      simp [find, hne, hnone]
    · have : k ≠ k' := fun e => h2 e.symm
      simp [find, this]
    · subst h3; subst h4
      simp [find]
    · subst h3
      have : k ≠ k' := fun e => h4 e.symm
      simp [find, this]
    · subst h5
      have hne : a ≠ k' := fun e => h3 e.symm
      simp [find, hne, ih h.2]
    · simp only [find]
      split_ifs with h6
      · rfl
      · rw [ih h.2]; simp [h5]

end Map

theorem postingList_of_find {s : State} {w : String} {posting : Map Int ℚ}
    (h : Map.find s.word_to_document_freqs_ w = some posting) : postingList s w = posting := by
  simp [postingList, h]

theorem postingList_of_find_none {s : State} {w : String}
    (h : Map.find s.word_to_document_freqs_ w = none) : postingList s w = [] := by
  simp [postingList, h]

theorem accumulateWord_keys (s : State) (pred : DocumentPredicate) (idf : ℚ)
    (posting : Map Int ℚ) : ∀ (rel rel' : Map Int ℚ),
    accumulateWord s pred idf posting rel = some rel' → ∀ id : Int,
      (id ∈ Map.keys rel' ↔
        id ∈ Map.keys rel ∨ (id ∈ Map.keys posting ∧ accepts s pred id = true)) := by
  induction posting with
  | nil =>
    intro rel rel' h id
    simp only [accumulateWord, Option.some.injEq] at h
    subst h
    simp [Map.keys]
  | cons p rest ih =>
    obtain ⟨a, tf⟩ := p
    intro rel rel' h id
    simp only [accumulateWord] at h
    cases hfa : Map.find s.documents_ a with
    | none => simp [hfa] at h
    | some data =>
      simp only [hfa] at h
      rw [ih _ _ h id]
      have hacc : accepts s pred a = pred a data.status data.rating := by
        simp [accepts, hfa]
      by_cases hp : pred a data.status data.rating = true
      · simp only [hp, if_true, Map.mem_keys_addAt]
        simp only [Map.keys, List.map_cons, List.mem_cons]
        constructor
        · rintro ((rfl | h1) | h2)
          · exact Or.inr ⟨Or.inl rfl, by rw [hacc, hp]⟩
          · exact Or.inl h1
          · exact Or.inr ⟨Or.inr h2.1, h2.2⟩
        · rintro (h1 | ⟨rfl | h2, h3⟩)
          · exact Or.inl (Or.inr h1)
          · exact Or.inl (Or.inl rfl)
          · exact Or.inr ⟨h2, h3⟩
      · simp only [hp]
        simp only [Map.keys, List.map_cons, List.mem_cons]
        constructor
        · rintro (h1 | h2)
          · exact Or.inl h1
          · exact Or.inr ⟨Or.inr h2.1, h2.2⟩
        · rintro (h1 | ⟨rfl | h2, h3⟩)
          · exact Or.inl h1
          · rw [hacc] at h3; exact absurd h3 hp
          · exact Or.inr ⟨h2, h3⟩

theorem accumulateWord_sorted (s : State) (pred : DocumentPredicate) (idf : ℚ)
    (posting : Map Int ℚ) : ∀ (rel rel' : Map Int ℚ),
    accumulateWord s pred idf posting rel = some rel' →
    (Map.keys rel).Pairwise (· < ·) → (Map.keys rel').Pairwise (· < ·) := by
  induction posting with
  | nil =>
    intro rel rel' h hs
    simp only [accumulateWord, Option.some.injEq] at h
    subst h
    exact hs
  | cons p rest ih =>
    obtain ⟨a, tf⟩ := p
    intro rel rel' h hs
    simp only [accumulateWord] at h
    cases hfa : Map.find s.documents_ a with
    | none => simp [hfa] at h
    | some data =>
      simp only [hfa] at h
      refine ih _ _ h ?_
      split_ifs
      · exact Map.sorted_addAt _ _ _ hs
      · exact hs

theorem valueAt_addAt (m : Map Int ℚ) (k : Int) (v : ℚ) (k' : Int)
    (h : (Map.keys m).Pairwise (· < ·)) :
    valueAt (Map.addAt m k v) k' = valueAt m k' + if k' = k then v else 0 := by
  unfold valueAt
  rw [Map.find_addAt m k v k' h]
  by_cases hk : k' = k
  · subst hk; simp
  · simp [hk]

theorem accumulateWord_valueAt (s : State) (pred : DocumentPredicate) (idf : ℚ)
    (posting : Map Int ℚ) : ∀ (rel rel' : Map Int ℚ),
    accumulateWord s pred idf posting rel = some rel' →
    (Map.keys posting).Nodup → (Map.keys rel).Pairwise (· < ·) → ∀ id : Int,
      valueAt rel' id = valueAt rel id +
        (if id ∈ Map.keys posting ∧ accepts s pred id = true
         then (Map.find posting id).getD 0 * idf else 0) := by
  induction posting with
  | nil =>
    intro rel rel' h _ _ id
    simp only [accumulateWord, Option.some.injEq] at h
    subst h
    simp [Map.keys]
  | cons p rest ih =>
    obtain ⟨a, tf⟩ := p
    intro rel rel' h hnd hs id
    simp only [Map.keys, List.map_cons, List.nodup_cons] at hnd
    simp only [accumulateWord] at h
    cases hfa : Map.find s.documents_ a with
    | none => simp [hfa] at h
    | some data =>
      simp only [hfa] at h
      have hacc : accepts s pred a = pred a data.status data.rating := by
        simp [accepts, hfa]
      have hs1 : (Map.keys (if pred a data.status data.rating = true
          then Map.addAt rel a (tf * idf) else rel)).Pairwise (· < ·) := by
        split_ifs
        · exact Map.sorted_addAt _ _ _ hs
        · exact hs
      rw [ih _ _ h hnd.2 hs1 id]
      by_cases hia : id = a
      · subst hia
        have hnr : ¬ (id ∈ Map.keys rest ∧ accepts s pred id = true) := fun hh => hnd.1 hh.1
        have hmem : id ∈ Map.keys ((id, tf) :: rest) := by simp [Map.keys]
        rw [if_neg hnr]
        by_cases hp : pred id data.status data.rating = true
        · have hya : id ∈ Map.keys ((id, tf) :: rest) ∧ accepts s pred id = true :=
            ⟨hmem, by rw [hacc, hp]⟩
          rw [if_pos hp, if_pos hya, valueAt_addAt _ _ _ _ hs]
          simp [Map.find]
        · have hna : ¬ (id ∈ Map.keys ((id, tf) :: rest) ∧ accepts s pred id = true) := by
            rintro ⟨_, h2⟩
            rw [hacc] at h2
            exact hp h2
          rw [if_neg hp, if_neg hna]
      · have hai : a ≠ id := fun e => hia e.symm
        have hv : valueAt (if pred a data.status data.rating = true
            then Map.addAt rel a (tf * idf) else rel) id = valueAt rel id := by
          split_ifs
          · rw [valueAt_addAt _ _ _ _ hs]; simp [hia]
          · rfl
        rw [hv]
        have hiff : (id ∈ Map.keys ((a, tf) :: rest) ∧ accepts s pred id = true) ↔
            (id ∈ Map.keys rest ∧ accepts s pred id = true) := by
          simp [Map.keys, hia]
        have hfind : Map.find ((a, tf) :: rest) id = Map.find rest id := by
          simp [Map.find, hai]
        rw [hfind]
        simp only [hiff]

theorem plusPass_keys (ln : ℚ → ℚ) (s : State) (pred : DocumentPredicate)
    (ws : List String) : ∀ (rel rel' : Map Int ℚ),
    plusPass ln s pred ws rel = some rel' → ∀ id : Int,
      (id ∈ Map.keys rel' ↔
        id ∈ Map.keys rel ∨
          ((∃ w ∈ ws, id ∈ Map.keys (postingList s w)) ∧ accepts s pred id = true)) := by
  induction ws with
  | nil =>
    intro rel rel' h id
    simp only [plusPass, Option.some.injEq] at h
    subst h
    simp
  | cons w rest ih =>
    intro rel rel' h id
    simp only [plusPass] at h
    cases hf : Map.find s.word_to_document_freqs_ w with
    | none =>
      simp only [hf] at h
      rw [ih _ _ h id]
      simp [postingList_of_find_none hf, Map.keys]
    | some posting =>
      simp only [hf] at h
      cases ha : accumulateWord s pred (ComputeWordInverseDocumentFreq ln s w) posting rel with
      | none => simp [ha] at h
      | some rel1 =>
        simp only [ha] at h
        rw [ih _ _ h id, accumulateWord_keys _ _ _ _ _ _ ha id]
        simp only [List.mem_cons, exists_eq_or_imp, postingList_of_find hf]
        tauto

theorem plusPass_sorted (ln : ℚ → ℚ) (s : State) (pred : DocumentPredicate)
    (ws : List String) : ∀ (rel rel' : Map Int ℚ),
    plusPass ln s pred ws rel = some rel' →
    (Map.keys rel).Pairwise (· < ·) → (Map.keys rel').Pairwise (· < ·) := by
  induction ws with
  | nil =>
    intro rel rel' h hs
    simp only [plusPass, Option.some.injEq] at h
    subst h
    exact hs
  | cons w rest ih =>
    intro rel rel' h hs
    simp only [plusPass] at h
    cases hf : Map.find s.word_to_document_freqs_ w with
    | none =>
      simp only [hf] at h
      exact ih _ _ h hs
    | some posting =>
      simp only [hf] at h
      cases ha : accumulateWord s pred (ComputeWordInverseDocumentFreq ln s w) posting rel with
      | none => simp [ha] at h
      | some rel1 =>
        simp only [ha] at h
        exact ih _ _ h (accumulateWord_sorted _ _ _ _ _ _ ha hs)

theorem plusPass_valueAt (ln : ℚ → ℚ) (s : State) (pred : DocumentPredicate)
    (hwf : ∀ w, (Map.keys (postingList s w)).Nodup)
    (ws : List String) : ∀ (rel rel' : Map Int ℚ),
    plusPass ln s pred ws rel = some rel' →
    (Map.keys rel).Pairwise (· < ·) → ∀ id : Int,
      valueAt rel' id = valueAt rel id +
        (if accepts s pred id = true then
          ((ws.filter (fun w => decide (id ∈ Map.keys (postingList s w)))).map
            (fun w => termFreq s w id * ComputeWordInverseDocumentFreq ln s w)).sum
         else 0) := by
  induction ws with
  | nil =>
    intro rel rel' h _ id
    simp only [plusPass, Option.some.injEq] at h
    subst h
    simp
  | cons w rest ih =>
    intro rel rel' h hs id
    simp only [plusPass] at h
    cases hf : Map.find s.word_to_document_freqs_ w with
    | none =>
      simp only [hf] at h
      rw [ih _ _ h hs id]
      have hno : id ∉ Map.keys (postingList s w) := by
        simp [postingList_of_find_none hf, Map.keys]
      simp [List.filter_cons, hno]
    | some posting =>
      simp only [hf] at h
      cases ha : accumulateWord s pred (ComputeWordInverseDocumentFreq ln s w) posting rel with
      | none => simp [ha] at h
      | some rel1 =>
        simp only [ha] at h
        have hp := postingList_of_find hf
        have hnd : (Map.keys posting).Nodup := hp ▸ hwf w
        rw [ih _ _ h (accumulateWord_sorted _ _ _ _ _ _ ha hs) id,
          accumulateWord_valueAt _ _ _ _ _ _ ha hnd hs id]
        by_cases hacc : accepts s pred id = true
        · by_cases hmem : id ∈ Map.keys posting
          · have hmem' : id ∈ Map.keys (postingList s w) := hp.symm ▸ hmem
            simp [List.filter_cons, hacc, hmem, hmem', termFreq, hp, add_assoc]
          · have hmem' : id ∉ Map.keys (postingList s w) := hp.symm ▸ hmem
            simp [List.filter_cons, hacc, hmem, hmem']
        · simp [hacc]

theorem eraseAll_sublist (posting : Map Int ℚ) : ∀ rel : Map Int ℚ,
    List.Sublist (eraseAll rel posting) rel := by
  induction posting with
  | nil => intro rel; exact List.Sublist.refl _
  | cons p rest ih =>
    obtain ⟨a, tf⟩ := p
    intro rel
    exact (ih _).trans (List.filter_sublist _)

theorem mem_keys_eraseAll (posting : Map Int ℚ) : ∀ (rel : Map Int ℚ) (id : Int),
    id ∈ Map.keys (eraseAll rel posting) ↔ id ∈ Map.keys rel ∧ id ∉ Map.keys posting := by
  induction posting with
  | nil => intro rel id; simp [eraseAll, Map.keys]
  | cons p rest ih =>
    obtain ⟨a, tf⟩ := p
    intro rel id
    simp only [eraseAll]
    rw [ih, Map.mem_keys_erase]
    simp only [Map.keys, List.map_cons, List.mem_cons, not_or]
    tauto

theorem minusPass_sublist (s : State) (ms : List String) : ∀ rel : Map Int ℚ,
    List.Sublist (minusPass s ms rel) rel := by
  induction ms with
  | nil => intro rel; exact List.Sublist.refl _
  | cons m rest ih =>
    intro rel
    simp only [minusPass]
    cases hf : Map.find s.word_to_document_freqs_ m with
    | none => exact ih _
    | some posting => exact (ih _).trans (eraseAll_sublist _ _)

theorem mem_keys_minusPass (s : State) (ms : List String) : ∀ (rel : Map Int ℚ) (id : Int),
    id ∈ Map.keys (minusPass s ms rel) ↔
      id ∈ Map.keys rel ∧ ∀ m ∈ ms, id ∉ Map.keys (postingList s m) := by
  induction ms with
  | nil => intro rel id; simp [minusPass]
  | cons m rest ih =>
    intro rel id
    simp only [minusPass]
    cases hf : Map.find s.word_to_document_freqs_ m with
    | none =>
      simp only [ih, List.mem_cons, forall_eq_or_imp, postingList_of_find_none hf]
      simp [Map.keys]
    | some posting =>
      simp only [ih, mem_keys_eraseAll, List.mem_cons, forall_eq_or_imp,
        postingList_of_find hf]
      tauto

theorem buildResult_spec (s : State) (m : Map Int ℚ) : ∀ docs : List Document,
    buildResult s m = some docs →
      docs.map (fun d => (d.id, d.relevance)) = m ∧
      ∀ d ∈ docs, (Map.find s.documents_ d.id).map DocumentData.rating = some d.rating := by
  induction m with
  | nil =>
    intro docs h
    simp only [buildResult, Option.some.injEq] at h
    subst h
    simp
  | cons p rest ih =>
    obtain ⟨a, r⟩ := p
    intro docs h
    simp only [buildResult] at h
    cases hfa : Map.find s.documents_ a with
    | none => simp [hfa] at h
    | some data =>
      simp only [hfa] at h
      cases hb : buildResult s rest with
      | none => simp [hb] at h
      | some docs1 =>
        simp only [hb, Option.some.injEq] at h
        subst h
        obtain ⟨h1, h2⟩ := ih docs1 hb
        refine ⟨by simp [h1], ?_⟩
        intro d hd
        rcases List.mem_cons.mp hd with rfl | hd
        · simp [hfa]
        · exact h2 d hd

theorem buildResult_ids (s : State) (m : Map Int ℚ) (docs : List Document)
    (h : buildResult s m = some docs) : docs.map Document.id = Map.keys m := by
  have := (buildResult_spec s m docs h).1
  rw [← this]
  simp [Map.keys, List.map_map, Function.comp_def]

/-- Membership in the result of the sequential `FindAllDocuments`. -/
theorem mem_FindAllDocuments_iff (ln : ℚ → ℚ) (s : State) (query : Query)
    (pred : DocumentPredicate) (docs : List Document)
    (h : FindAllDocuments ln s query pred = some docs) (id : Int) :
    id ∈ docs.map Document.id ↔
      accepts s pred id = true ∧
      (∃ w ∈ query.plus_words, id ∈ Map.keys (postingList s w)) ∧
      (∀ m ∈ query.minus_words, id ∉ Map.keys (postingList s m)) := by
  unfold FindAllDocuments at h
  cases hp : plusPass ln s pred query.plus_words [] with
  | none => simp [hp] at h
  | some rel =>
    simp only [hp] at h
    rw [buildResult_ids s _ docs h, mem_keys_minusPass, plusPass_keys ln s pred _ _ _ hp id]
    simp only [Map.keys, List.map_nil, List.not_mem_nil, false_or]
    tauto

/-! ## Lemmas on sorting and truncation -/

theorem orderedInsert_perm {α : Type} (comp : α → α → Bool) (x : α) (l : List α) :
    (orderedInsert comp x l).Perm (x :: l) := by
  induction l with
  | nil => simp [orderedInsert]
  | cons y ys ih =>
    simp only [orderedInsert]
    split_ifs
    · exact List.Perm.refl _
    · exact ((List.Perm.cons y ih).trans (List.Perm.swap x y ys))

theorem sort_perm {α : Type} (comp : α → α → Bool) (l : List α) :
    (sort comp l).Perm l := by
  induction l with
  | nil => simp [sort]
  | cons x xs ih =>
    simp only [sort]
    exact (orderedInsert_perm comp x _).trans (List.Perm.cons x ih)

theorem orderedInsert_sorted {α : Type} (comp : α → α → Bool) (P : α → Prop)
    (hirr : ∀ a, P a → comp a a = false)
    (htr : ∀ a b c, P a → P b → P c → comp a b = true → comp b c = true → comp a c = true)
    (x : α) (hx : P x) (l : List α) (hl : ∀ y ∈ l, P y)
    (hs : l.Pairwise (fun a b => comp b a = false)) :
    (orderedInsert comp x l).Pairwise (fun a b => comp b a = false) := by
  induction l with
  | nil => simp [orderedInsert]
  | cons y ys ih =>
    have hy : P y := hl y (List.mem_cons_self _ _)
    have hys : ∀ z ∈ ys, P z := fun z hz => hl z (List.mem_cons_of_mem _ hz)
    rw [List.pairwise_cons] at hs
    simp only [orderedInsert]
    split_ifs with hc
    · refine List.Pairwise.cons ?_ (List.Pairwise.cons hs.1 hs.2)
      intro z hz
      rcases List.mem_cons.mp hz with rfl | hz
      · cases hzx : comp z x with
        | false => rfl
        | true => have := htr x z x hx hy hx hc hzx; rw [hirr x hx] at this; cases this
      · cases hzx : comp z x with
        | false => rfl
        | true =>
          have h1 := htr z x y (hys z hz) hx hy hzx hc
          rw [hs.1 z hz] at h1
          cases h1
    · refine List.Pairwise.cons ?_ (ih hys hs.2)
      intro z hz
      rcases List.mem_cons.mp ((orderedInsert_perm comp x ys).subset hz) with rfl | hz
      · simpa using hc
      · exact hs.1 z hz

theorem sort_sorted {α : Type} (comp : α → α → Bool) (l : List α)
    (h : StrictWeakOn comp l) : (sort comp l).Pairwise (fun a b => comp b a = false) := by
  obtain ⟨hirr, htr, _⟩ := h
  have key : ∀ l' : List α, (∀ y ∈ l', y ∈ l) →
      (sort comp l').Pairwise (fun a b => comp b a = false) := by
    intro l'
    induction l' with
    | nil => intro _; simp [sort]
    | cons x xs ih =>
      intro hsub
      simp only [sort]
      refine orderedInsert_sorted comp (fun a => a ∈ l) hirr
        (fun a b c ha hb hc => htr a ha b hb c hc) x (hsub x (List.mem_cons_self _ _)) _ ?_
        (ih (fun y hy => hsub y (List.mem_cons_of_mem _ hy)))
      intro y hy
      exact hsub y (List.mem_cons_of_mem _ ((sort_perm comp xs).subset hy))
  exact key l (fun _ hy => hy)

theorem FindTopDocuments_eq (ln : ℚ → ℚ) (hash : Int → Nat) (policy : ExecutionPolicy)
    (s : State) (query : Query) (pred : DocumentPredicate) :
    FindTopDocuments ln hash policy s query pred =
      (FindAllDocumentsWith ln hash policy s query pred).map
        (fun all => (sort compareDocuments all).take 5) := by
  unfold FindTopDocuments
  cases FindAllDocumentsWith ln hash policy s query pred with
  | none => rfl
  | some all =>
    simp only [Option.map_some', Option.some.injEq, MAX_RESULT_DOCUMENT_COUNT]
    split_ifs with hlen
    · rfl
    · exact (List.take_of_length_le (not_lt.mp hlen)).symm

/-! ## Minus words, membership and relevance of the sequential engine -/

theorem FindTopDocuments_subset (ln : ℚ → ℚ) (hash : Int → Nat) (policy : ExecutionPolicy)
    (s : State) (query : Query) (pred : DocumentPredicate) (all top : List Document)
    (hall : FindAllDocumentsWith ln hash policy s query pred = some all)
    (htop : FindTopDocuments ln hash policy s query pred = some top) :
    top.Subperm all := by
  rw [FindTopDocuments_eq, hall] at htop
  simp only [Option.map_some', Option.some.injEq] at htop
  subst htop
  exact (List.take_sublist _ _).subperm.trans (sort_perm _ _).subperm

/-- C2. For every minus word `m` of the query and every document id in the
posting list of `m`, the id is absent from the result of the sequential
`FindAllDocuments` and from the result of the sequential `FindTopDocuments`,
whatever the plus words and the predicate. -/
theorem minus_word_excluded (ln : ℚ → ℚ) (hash : Int → Nat) (s : State) (query : Query)
    (pred : DocumentPredicate) (m : String) (id : Int)
    (hm : m ∈ query.minus_words) (hid : id ∈ Map.keys (postingList s m)) :
    (∀ docs, FindAllDocuments ln s query pred = some docs → id ∉ docs.map Document.id) ∧
    (∀ top, FindTopDocuments ln hash ExecutionPolicy.seq s query pred = some top →
      id ∉ top.map Document.id) := by
  have hall : ∀ docs, FindAllDocuments ln s query pred = some docs →
      id ∉ docs.map Document.id := by
    intro docs h hmem
    exact ((mem_FindAllDocuments_iff ln s query pred docs h id).mp hmem).2.2 m hm hid
  refine ⟨hall, ?_⟩
  intro top htop hmem
  cases hfa : FindAllDocuments ln s query pred with
  | none =>
    rw [FindTopDocuments_eq] at htop
    simp [FindAllDocumentsWith, hfa] at htop
  | some all =>
    have hsub := FindTopDocuments_subset ln hash ExecutionPolicy.seq s query pred all top
      (by simpa [FindAllDocumentsWith] using hfa) htop
    obtain ⟨d, hd, hdid⟩ := List.mem_map.mp hmem
    exact hall all hfa (List.mem_map.mpr ⟨d, hsub.subset hd, hdid⟩)

/-- C5. A document id is in the result of the sequential `FindAllDocuments`
exactly when the predicate holds on its stored (id, status, rating), it is in
the posting list of some plus word, and it is in the posting list of no minus
word. -/
theorem FindAllDocuments_membership (ln : ℚ → ℚ) (s : State) (query : Query)
    (pred : DocumentPredicate) (docs : List Document)
    (h : FindAllDocuments ln s query pred = some docs) (id : Int) :
    id ∈ docs.map Document.id ↔
      (∃ data, Map.find s.documents_ id = some data ∧
        pred id data.status data.rating = true) ∧
      (∃ w ∈ query.plus_words, id ∈ Map.keys (postingList s w)) ∧
      (∀ m ∈ query.minus_words, id ∉ Map.keys (postingList s m)) := by
  rw [mem_FindAllDocuments_iff ln s query pred docs h id]
  have hacc : accepts s pred id = true ↔
      ∃ data, Map.find s.documents_ id = some data ∧
        pred id data.status data.rating = true := by
    unfold accepts
    cases Map.find s.documents_ id with
    | none => simp
    | some data => simp
  rw [hacc]

/-- C4. With pairwise distinct plus words and posting lists that are maps,
every entry of the result of the sequential `FindAllDocuments` has as relevance
the sum, over the plus words whose posting list contains its id, of
termFreq(w, id) × ln(document count ÷ size of the posting list of w), and as
rating the rating stored for its id. -/
theorem FindAllDocuments_relevance (ln : ℚ → ℚ) (s : State) (query : Query)
    (pred : DocumentPredicate) (docs : List Document)
    (hwf : ∀ w posting, Map.find s.word_to_document_freqs_ w = some posting →
      (Map.keys posting).Nodup)
    (hplus : query.plus_words.Nodup)
    (h : FindAllDocuments ln s query pred = some docs) :
    ∀ d ∈ docs,
      d.relevance =
        ∑ w in query.plus_words.toFinset.filter (fun w => d.id ∈ Map.keys (postingList s w)),
          termFreq s w d.id *
            ln ((GetDocumentCount s : ℚ) / ((postingList s w).length : ℚ)) ∧
      (Map.find s.documents_ d.id).map DocumentData.rating = some d.rating := by
  intro d hd
  have hwf' : ∀ w, (Map.keys (postingList s w)).Nodup := by
    intro w
    cases hf : Map.find s.word_to_document_freqs_ w with
    | none => simp [postingList_of_find_none hf, Map.keys]
    | some posting => rw [postingList_of_find hf]; exact hwf w posting hf
  have hmemid : d.id ∈ docs.map Document.id := List.mem_map.mpr ⟨d, hd, rfl⟩
  have hacc := ((mem_FindAllDocuments_iff ln s query pred docs h d.id).mp hmemid).1
  unfold FindAllDocuments at h
  cases hp : plusPass ln s pred query.plus_words [] with
  | none => simp [hp] at h
  | some rel =>
    simp only [hp] at h
    obtain ⟨hentries, hrating⟩ := buildResult_spec s _ docs h
    refine ⟨?_, hrating d hd⟩
    have hsorted : (Map.keys rel).Pairwise (· < ·) :=
      plusPass_sorted ln s pred _ _ _ hp (by simp [Map.keys])
    have hpair : (d.id, d.relevance) ∈ minusPass s query.minus_words rel := by
      rw [← hentries]
      exact List.mem_map.mpr ⟨d, hd, rfl⟩
    have hin : (d.id, d.relevance) ∈ rel := (minusPass_sublist s _ rel).subset hpair
    have hnd : (Map.keys rel).Nodup := hsorted.imp (fun hab => ne_of_lt hab)
    have hfind := Map.find_of_mem rel d.id d.relevance hnd hin
    have hval := plusPass_valueAt ln s pred hwf' _ _ _ hp (by simp [Map.keys]) d.id
    simp only [valueAt, hfind, Option.getD_some, Map.find, Option.getD_none, zero_add, hacc,
      if_true] at hval
    rw [hval]
    have hfilter : query.plus_words.toFinset.filter
          (fun w => d.id ∈ Map.keys (postingList s w)) =
        (query.plus_words.filter
          (fun w => decide (d.id ∈ Map.keys (postingList s w)))).toFinset := by
      ext w
      simp
    rw [hfilter, List.sum_toFinset _ (hplus.filter _)]
    rfl

theorem petsServer_find_all :
    FindAllDocuments lnTable petsServer ⟨["cat", "dog"], ["bird"]⟩ anyDocument =
      some [⟨1, 3465736 / 10000000, 5⟩] := by
  simp [FindAllDocuments, plusPass, minusPass, buildResult, petsServer, Map.find,
    accumulateWord, eraseAll, Map.erase, Map.addAt, ComputeWordInverseDocumentFreq,
    GetDocumentCount, lnTable, anyDocument]
  norm_num

theorem petsServer_postings_wf : ∀ w posting,
    Map.find petsServer.word_to_document_freqs_ w = some posting → (Map.keys posting).Nodup := by
  intro w posting h
  simp only [petsServer, Map.find] at h
  split_ifs at h <;> simp at h <;> subst h <;> simp [Map.keys]

/-- Witness of C2 on the server of the specification example, query
"cat dog -bird": document 2 contains "bird" and is excluded. -/
theorem minus_word_excluded_witness :
    FindAllDocuments lnTable petsServer ⟨["cat", "dog"], ["bird"]⟩ anyDocument =
      some [⟨1, 3465736 / 10000000, 5⟩] ∧
    (2 : Int) ∈ Map.keys (postingList petsServer "bird") ∧
    ((∀ docs, FindAllDocuments lnTable petsServer ⟨["cat", "dog"], ["bird"]⟩ anyDocument =
        some docs → (2 : Int) ∉ docs.map Document.id) ∧
     (∀ top, FindTopDocuments lnTable idHash ExecutionPolicy.seq petsServer
        ⟨["cat", "dog"], ["bird"]⟩ anyDocument = some top → (2 : Int) ∉ top.map Document.id)) :=
  ⟨petsServer_find_all,
   by simp [postingList, petsServer, Map.find, Map.keys],
   minus_word_excluded lnTable idHash petsServer ⟨["cat", "dog"], ["bird"]⟩ anyDocument
     "bird" 2 (by simp) (by simp [postingList, petsServer, Map.find, Map.keys])⟩

/-- Witness of C5 on the server of the specification example, query
"cat dog -bird", at document 1. -/
theorem FindAllDocuments_membership_witness :
    FindAllDocuments lnTable petsServer ⟨["cat", "dog"], ["bird"]⟩ anyDocument =
      some [⟨1, 3465736 / 10000000, 5⟩] ∧
    ((1 : Int) ∈ ([⟨1, 3465736 / 10000000, 5⟩] : List Document).map Document.id ↔
      (∃ data, Map.find petsServer.documents_ 1 = some data ∧
        anyDocument 1 data.status data.rating = true) ∧
      (∃ w ∈ (Query.mk ["cat", "dog"] ["bird"]).plus_words,
        (1 : Int) ∈ Map.keys (postingList petsServer w)) ∧
      (∀ m ∈ (Query.mk ["cat", "dog"] ["bird"]).minus_words,
        (1 : Int) ∉ Map.keys (postingList petsServer m))) :=
  ⟨petsServer_find_all,
   FindAllDocuments_membership lnTable petsServer ⟨["cat", "dog"], ["bird"]⟩ anyDocument
     [⟨1, 3465736 / 10000000, 5⟩] petsServer_find_all 1⟩

/-- Witness of C4 on the server of the specification example, query
"cat dog -bird". -/
theorem FindAllDocuments_relevance_witness :
    (Query.mk ["cat", "dog"] ["bird"]).plus_words.Nodup ∧
    FindAllDocuments lnTable petsServer ⟨["cat", "dog"], ["bird"]⟩ anyDocument =
      some [⟨1, 3465736 / 10000000, 5⟩] ∧
    ∀ d ∈ ([⟨1, 3465736 / 10000000, 5⟩] : List Document),
      d.relevance =
        ∑ w in (Query.mk ["cat", "dog"] ["bird"]).plus_words.toFinset.filter
            (fun w => d.id ∈ Map.keys (postingList petsServer w)),
          termFreq petsServer w d.id *
            lnTable ((GetDocumentCount petsServer : ℚ) /
              ((postingList petsServer w).length : ℚ)) ∧
      (Map.find petsServer.documents_ d.id).map DocumentData.rating = some d.rating :=
  ⟨by simp, petsServer_find_all,
   FindAllDocuments_relevance lnTable petsServer ⟨["cat", "dog"], ["bird"]⟩ anyDocument
     [⟨1, 3465736 / 10000000, 5⟩] petsServer_postings_wf (by simp) petsServer_find_all⟩

/-! ## Top-K selection -/

/-- C6. Whenever `FindAllDocuments` returns `n` documents, `FindTopDocuments`
returns min(5, n) documents for the same arguments, each of them one of those
`n` documents, with its id, relevance and rating unchanged. -/
theorem FindTopDocuments_count (ln : ℚ → ℚ) (hash : Int → Nat) (policy : ExecutionPolicy)
    (s : State) (query : Query) (pred : DocumentPredicate) (all : List Document)
    (h : FindAllDocumentsWith ln hash policy s query pred = some all) :
    ∃ top, FindTopDocuments ln hash policy s query pred = some top ∧
      top.length = min 5 all.length ∧ top.Subperm all ∧ ∀ d ∈ top, d ∈ all := by
  refine ⟨(sort compareDocuments all).take 5, ?_, ?_, ?_, ?_⟩
  · rw [FindTopDocuments_eq, h]; rfl
  · rw [List.length_take, (sort_perm compareDocuments all).length_eq]
  · exact (List.take_sublist _ _).subperm.trans (sort_perm _ _).subperm
  · intro d hd
    exact (sort_perm compareDocuments all).subset ((List.take_sublist _ _).subset hd)

theorem compareDocuments_false_iff (d e : Document) :
    compareDocuments e d = false ↔ RankedBefore d e := by
  unfold compareDocuments RankedBefore
  rw [abs_sub_comm e.relevance d.relevance]
  by_cases hc : |d.relevance - e.relevance| < INACCURACY_OF_COMPARISON
  · simp only [hc, if_true, decide_eq_false_iff_not, not_lt, ge_iff_le, gt_iff_lt,
      forall_true_left]
    constructor
    · intro h
      exact ⟨fun h' => absurd hc (not_lt.mpr h'), h⟩
    · intro h
      exact h.2
  · simp only [hc, if_false, decide_eq_false_iff_not, not_lt, gt_iff_lt]
    have hge := not_lt.mp hc
    have hpos : (0 : ℚ) < INACCURACY_OF_COMPARISON := by norm_num [INACCURACY_OF_COMPARISON]
    constructor
    · intro h
      refine ⟨fun _ => ?_, fun h' => False.elim h'⟩
      rcases lt_or_eq_of_le h with hlt | heq
      · exact hlt
      · exfalso
        rw [heq, sub_self, abs_zero] at hge
        exact absurd hpos (not_lt.mpr hge)
    · intro h
      exact le_of_lt (h.1 hge)

/-- C7, as amended. When the comparator is a strict weak ordering of the
matched documents, `FindTopDocuments` returns a list in which every result
placed before another has the greater relevance when their relevances differ
by at least 1e-6 and a rating at least as high when they differ by less. -/
theorem FindTopDocuments_ranked (ln : ℚ → ℚ) (hash : Int → Nat) (policy : ExecutionPolicy)
    (s : State) (query : Query) (pred : DocumentPredicate) (all : List Document)
    (h : FindAllDocumentsWith ln hash policy s query pred = some all)
    (hswo : StrictWeakOn compareDocuments all) :
    ∃ top, FindTopDocuments ln hash policy s query pred = some top ∧
      top.Pairwise (fun d e =>
        (INACCURACY_OF_COMPARISON ≤ |d.relevance - e.relevance| →
          d.relevance > e.relevance) ∧
        (|d.relevance - e.relevance| < INACCURACY_OF_COMPARISON → d.rating ≥ e.rating)) := by
  refine ⟨(sort compareDocuments all).take 5, ?_, ?_⟩
  · rw [FindTopDocuments_eq, h]; rfl
  · have hs := (sort_sorted compareDocuments all hswo).sublist (List.take_sublist 5 _)
    exact hs.imp (fun {d e} hde => (compareDocuments_false_iff d e).mp hde)

theorem apart_all (all : List Document)
    (hapart : all.Pairwise (fun a b =>
      INACCURACY_OF_COMPARISON ≤ |a.relevance - b.relevance|)) :
    ∀ a ∈ all, ∀ b ∈ all,
      a = b ∨ INACCURACY_OF_COMPARISON ≤ |a.relevance - b.relevance| := by
  have hsymm : Symmetric (fun a b : Document =>
      a = b ∨ INACCURACY_OF_COMPARISON ≤ |a.relevance - b.relevance|) := by
    intro a b hab
    rcases hab with rfl | hab
    · exact Or.inl rfl
    · exact Or.inr (by rw [abs_sub_comm]; exact hab)
  exact List.Pairwise.forall_of_forall hsymm (fun x _ => Or.inl rfl)
    (hapart.imp (fun hab => Or.inr hab))

theorem compareDocuments_of_apart (a b : Document)
    (h : a = b ∨ INACCURACY_OF_COMPARISON ≤ |a.relevance - b.relevance|) :
    compareDocuments a b = decide (a.relevance > b.relevance) := by
  unfold compareDocuments
  rcases h with rfl | h
  · have hpos : (0 : ℚ) < INACCURACY_OF_COMPARISON := by norm_num [INACCURACY_OF_COMPARISON]
    simp [hpos]
  · rw [if_neg (not_lt.mpr h)]

theorem eq_of_apart_of_relevance_eq (a b : Document)
    (h : a = b ∨ INACCURACY_OF_COMPARISON ≤ |a.relevance - b.relevance|)
    (heq : a.relevance = b.relevance) : a = b := by
  rcases h with rfl | h
  · rfl
  · exfalso
    rw [heq, sub_self, abs_zero] at h
    have hpos : (0 : ℚ) < INACCURACY_OF_COMPARISON := by norm_num [INACCURACY_OF_COMPARISON]
    exact absurd hpos (not_lt.mpr h)

theorem strictWeakOn_of_apart (all : List Document)
    (hapart : all.Pairwise (fun a b =>
      INACCURACY_OF_COMPARISON ≤ |a.relevance - b.relevance|)) :
    StrictWeakOn compareDocuments all := by
  have hA := apart_all all hapart
  refine ⟨?_, ?_, ?_⟩
  · intro a ha
    rw [compareDocuments_of_apart a a (Or.inl rfl)]
    simp
  · intro a ha b hb c hc hab hbc
    rw [compareDocuments_of_apart a b (hA a ha b hb)] at hab
    rw [compareDocuments_of_apart b c (hA b hb c hc)] at hbc
    rw [compareDocuments_of_apart a c (hA a ha c hc)]
    simp only [decide_eq_true_eq, gt_iff_lt] at hab hbc ⊢
    exact lt_trans hbc hab
  · intro a ha b hb c hc hab hba hbc hcb
    rw [compareDocuments_of_apart a b (hA a ha b hb)] at hab
    rw [compareDocuments_of_apart b a (hA b hb a ha)] at hba
    rw [compareDocuments_of_apart b c (hA b hb c hc)] at hbc
    rw [compareDocuments_of_apart c b (hA c hc b hb)] at hcb
    simp only [decide_eq_false_iff_not, gt_iff_lt, not_lt] at hab hba hbc hcb
    have e1 : a = b := eq_of_apart_of_relevance_eq a b (hA a ha b hb) (le_antisymm hab hba)
    have e2 : b = c := eq_of_apart_of_relevance_eq b c (hA b hb c hc) (le_antisymm hbc hcb)
    subst e1; subst e2
    rw [compareDocuments_of_apart a a (Or.inl rfl)]
    simp

/-- C8. When more than 5 documents match and their relevances pairwise differ
by at least 1e-6, `FindTopDocuments` returns exactly 5 of the matched
documents, in strictly decreasing relevance, and every matched document left
out has a smaller relevance than every document returned. -/
theorem FindTopDocuments_top_five (ln : ℚ → ℚ) (hash : Int → Nat)
    (policy : ExecutionPolicy) (s : State) (query : Query) (pred : DocumentPredicate)
    (all : List Document)
    (h : FindAllDocumentsWith ln hash policy s query pred = some all)
    (hmore : 5 < all.length)
    (hapart : all.Pairwise (fun a b =>
      INACCURACY_OF_COMPARISON ≤ |a.relevance - b.relevance|)) :
    ∃ top, FindTopDocuments ln hash policy s query pred = some top ∧
      top.length = 5 ∧
      top.Pairwise (fun a b => a.relevance > b.relevance) ∧
      (∀ d ∈ top, d ∈ all) ∧
      (∀ d ∈ all, d ∉ top → ∀ t ∈ top, d.relevance < t.relevance) := by
  have hperm := sort_perm compareDocuments all
  have hsymm : ∀ {x y : Document},
      INACCURACY_OF_COMPARISON ≤ |x.relevance - y.relevance| →
      INACCURACY_OF_COMPARISON ≤ |y.relevance - x.relevance| := by
    intro x y hxy
    rw [abs_sub_comm]; exact hxy
  have hapart' : (sort compareDocuments all).Pairwise (fun a b =>
      INACCURACY_OF_COMPARISON ≤ |a.relevance - b.relevance|) :=
    (hperm.pairwise_iff hsymm).mpr hapart
  have hsorted := sort_sorted compareDocuments all (strictWeakOn_of_apart all hapart)
  have hstrict : (sort compareDocuments all).Pairwise
      (fun a b => a.relevance > b.relevance) := by
    refine (hsorted.and hapart').imp ?_
    intro a b hab
    exact ((compareDocuments_false_iff a b).mp hab.1).1 hab.2
  refine ⟨(sort compareDocuments all).take 5, ?_, ?_, ?_, ?_, ?_⟩
  · rw [FindTopDocuments_eq, h]; rfl
  · rw [List.length_take, hperm.length_eq]
    exact min_eq_left (le_of_lt hmore)
  · exact hstrict.sublist (List.take_sublist 5 _)
  · intro d hd
    exact hperm.subset ((List.take_sublist _ _).subset hd)
  · intro d hd hnot t ht
    have hsplit := List.take_append_drop 5 (sort compareDocuments all)
    have hdmem : d ∈ (sort compareDocuments all).take 5 ++ (sort compareDocuments all).drop 5 := by
      rw [hsplit]; exact hperm.symm.subset hd
    rcases List.mem_append.mp hdmem with h1 | h2
    · exact absurd h1 hnot
    · rw [← hsplit] at hstrict
      exact (List.pairwise_append.mp hstrict).2.2 t ht d h2

theorem nearTieServer_find_all :
    FindAllDocuments lnTable nearTieServer ⟨["a"], []⟩ anyDocument =
      some [⟨1, 2876821 / 20000000, 3⟩, ⟨2, 719208126821 / 5000000000000, 2⟩,
            ⟨3, 359605501821 / 2500000000000, 1⟩] := by
  simp [FindAllDocuments, plusPass, minusPass, buildResult, nearTieServer, Map.find,
    accumulateWord, Map.addAt, ComputeWordInverseDocumentFreq,
    GetDocumentCount, lnTable, anyDocument]
  norm_num

theorem nearTieServer_find_first_two :
    FindAllDocuments lnTable nearTieServer ⟨["a"], []⟩ firstTwo =
      some [⟨1, 2876821 / 20000000, 3⟩, ⟨2, 719208126821 / 5000000000000, 2⟩] := by
  simp [FindAllDocuments, plusPass, minusPass, buildResult, nearTieServer, Map.find,
    accumulateWord, Map.addAt, ComputeWordInverseDocumentFreq,
    GetDocumentCount, lnTable, firstTwo]
  norm_num

theorem eightServer_find_all :
    FindAllDocuments lnTable eightServer ⟨["a"], []⟩ anyDocument =
      some [⟨1, 2876821 / 10000000, 1⟩, ⟨2, 2876821 / 20000000, 2⟩,
            ⟨3, 2876821 / 30000000, 3⟩, ⟨4, 2876821 / 40000000, 4⟩,
            ⟨5, 2876821 / 50000000, 5⟩, ⟨6, 2876821 / 60000000, 6⟩] := by
  simp [FindAllDocuments, plusPass, minusPass, buildResult, eightServer, Map.find,
    accumulateWord, Map.addAt, ComputeWordInverseDocumentFreq,
    GetDocumentCount, lnTable, anyDocument]
  norm_num

theorem eightServer_apart :
    ([⟨1, 2876821 / 10000000, 1⟩, ⟨2, 2876821 / 20000000, 2⟩,
      ⟨3, 2876821 / 30000000, 3⟩, ⟨4, 2876821 / 40000000, 4⟩,
      ⟨5, 2876821 / 50000000, 5⟩, ⟨6, 2876821 / 60000000, 6⟩] : List Document).Pairwise
      (fun a b => INACCURACY_OF_COMPARISON ≤ |a.relevance - b.relevance|) := by
  norm_num [INACCURACY_OF_COMPARISON, le_abs]

theorem nearTie_strictWeakOn :
    StrictWeakOn compareDocuments
      [⟨1, 2876821 / 20000000, 3⟩, ⟨2, 719208126821 / 5000000000000, 2⟩] := by
  norm_num [StrictWeakOn, compareDocuments, INACCURACY_OF_COMPARISON, abs_lt]

/-- Witness of C6 on a server where six documents match. -/
theorem FindTopDocuments_count_witness :
    FindAllDocumentsWith lnTable idHash ExecutionPolicy.seq eightServer ⟨["a"], []⟩
        anyDocument =
      some [⟨1, 2876821 / 10000000, 1⟩, ⟨2, 2876821 / 20000000, 2⟩,
            ⟨3, 2876821 / 30000000, 3⟩, ⟨4, 2876821 / 40000000, 4⟩,
            ⟨5, 2876821 / 50000000, 5⟩, ⟨6, 2876821 / 60000000, 6⟩] ∧
    ∃ top, FindTopDocuments lnTable idHash ExecutionPolicy.seq eightServer ⟨["a"], []⟩
        anyDocument = some top ∧
      top.length = min 5
        ([⟨1, 2876821 / 10000000, 1⟩, ⟨2, 2876821 / 20000000, 2⟩,
          ⟨3, 2876821 / 30000000, 3⟩, ⟨4, 2876821 / 40000000, 4⟩,
          ⟨5, 2876821 / 50000000, 5⟩, ⟨6, 2876821 / 60000000, 6⟩] : List Document).length ∧
      top.Subperm [⟨1, 2876821 / 10000000, 1⟩, ⟨2, 2876821 / 20000000, 2⟩,
          ⟨3, 2876821 / 30000000, 3⟩, ⟨4, 2876821 / 40000000, 4⟩,
          ⟨5, 2876821 / 50000000, 5⟩, ⟨6, 2876821 / 60000000, 6⟩] ∧
      ∀ d ∈ top, d ∈ ([⟨1, 2876821 / 10000000, 1⟩, ⟨2, 2876821 / 20000000, 2⟩,
          ⟨3, 2876821 / 30000000, 3⟩, ⟨4, 2876821 / 40000000, 4⟩,
          ⟨5, 2876821 / 50000000, 5⟩, ⟨6, 2876821 / 60000000, 6⟩] : List Document) :=
  ⟨eightServer_find_all,
   FindTopDocuments_count lnTable idHash ExecutionPolicy.seq eightServer ⟨["a"], []⟩
     anyDocument _ eightServer_find_all⟩

/-- Witness of C8 on a server where six documents match, with relevances
that differ by more than 1e-6. -/
theorem FindTopDocuments_top_five_witness :
    ∃ top, FindTopDocuments lnTable idHash ExecutionPolicy.seq eightServer ⟨["a"], []⟩
        anyDocument = some top ∧
      top.length = 5 ∧
      top.Pairwise (fun a b => a.relevance > b.relevance) ∧
      (∀ d ∈ top, d ∈ ([⟨1, 2876821 / 10000000, 1⟩, ⟨2, 2876821 / 20000000, 2⟩,
          ⟨3, 2876821 / 30000000, 3⟩, ⟨4, 2876821 / 40000000, 4⟩,
          ⟨5, 2876821 / 50000000, 5⟩, ⟨6, 2876821 / 60000000, 6⟩] : List Document)) ∧
      (∀ d ∈ ([⟨1, 2876821 / 10000000, 1⟩, ⟨2, 2876821 / 20000000, 2⟩,
          ⟨3, 2876821 / 30000000, 3⟩, ⟨4, 2876821 / 40000000, 4⟩,
          ⟨5, 2876821 / 50000000, 5⟩, ⟨6, 2876821 / 60000000, 6⟩] : List Document),
        d ∉ top → ∀ t ∈ top, d.relevance < t.relevance) :=
  FindTopDocuments_top_five lnTable idHash ExecutionPolicy.seq eightServer ⟨["a"], []⟩
    anyDocument _ eightServer_find_all (by decide) eightServer_apart

/-- Witness of C7 as amended, on two documents whose relevances differ by less
than 1e-6: the one of higher rating comes first. -/
theorem FindTopDocuments_ranked_witness :
    StrictWeakOn compareDocuments
      [⟨1, 2876821 / 20000000, 3⟩, ⟨2, 719208126821 / 5000000000000, 2⟩] ∧
    ∃ top, FindTopDocuments lnTable idHash ExecutionPolicy.seq nearTieServer ⟨["a"], []⟩
        firstTwo = some top ∧
      top.Pairwise (fun d e =>
        (INACCURACY_OF_COMPARISON ≤ |d.relevance - e.relevance| →
          d.relevance > e.relevance) ∧
        (|d.relevance - e.relevance| < INACCURACY_OF_COMPARISON → d.rating ≥ e.rating)) :=
  ⟨nearTie_strictWeakOn,
   FindTopDocuments_ranked lnTable idHash ExecutionPolicy.seq nearTieServer ⟨["a"], []⟩
     firstTwo _ nearTieServer_find_first_two nearTie_strictWeakOn⟩

theorem nearTieServer_top_first_two :
    FindTopDocuments lnTable idHash ExecutionPolicy.seq nearTieServer ⟨["a"], []⟩ firstTwo =
      some [⟨1, 2876821 / 20000000, 3⟩, ⟨2, 719208126821 / 5000000000000, 2⟩] := by
  rw [FindTopDocuments_eq]
  simp only [FindAllDocumentsWith, nearTieServer_find_first_two, Option.map_some']
  norm_num [sort, orderedInsert, compareDocuments, INACCURACY_OF_COMPARISON, abs_lt]

/-- Counterexample to C7.  On `nearTieServer`, query "a": with the documents 1
and 2 matched, `FindTopDocuments` returns document 1 (relevance 0.14384105,
rating 3) before document 2 (relevance 0.14384163, rating 2), so the relevance
increases along the result; and with documents 1, 2 and 3 matched, no
arrangement of the three puts every pair in the order of the comparator. -/
theorem FindTopDocuments_not_nonincreasing :
    (FindTopDocuments lnTable idHash ExecutionPolicy.seq nearTieServer ⟨["a"], []⟩ firstTwo =
        some [⟨1, 2876821 / 20000000, 3⟩, ⟨2, 719208126821 / 5000000000000, 2⟩] ∧
      ¬ ([⟨1, 2876821 / 20000000, 3⟩, ⟨2, 719208126821 / 5000000000000, 2⟩] :
          List Document).Pairwise NonIncreasing) ∧
    (FindAllDocuments lnTable nearTieServer ⟨["a"], []⟩ anyDocument =
        some [⟨1, 2876821 / 20000000, 3⟩, ⟨2, 719208126821 / 5000000000000, 2⟩,
              ⟨3, 359605501821 / 2500000000000, 1⟩] ∧
      ∀ l : List Document,
        l.Perm [⟨1, 2876821 / 20000000, 3⟩, ⟨2, 719208126821 / 5000000000000, 2⟩,
                ⟨3, 359605501821 / 2500000000000, 1⟩] →
        ¬ l.Pairwise RankedBefore) := by
  refine ⟨⟨nearTieServer_top_first_two, ?_⟩, nearTieServer_find_all, ?_⟩
  · norm_num [NonIncreasing]
  · intro l hperm hpw
    have h12 : RankedBefore ⟨2, 719208126821 / 5000000000000, 2⟩ ⟨1, 2876821 / 20000000, 3⟩ →
        False := by
      norm_num [RankedBefore, INACCURACY_OF_COMPARISON, abs_lt]
    have h23 : RankedBefore ⟨3, 359605501821 / 2500000000000, 1⟩
        ⟨2, 719208126821 / 5000000000000, 2⟩ → False := by
      norm_num [RankedBefore, INACCURACY_OF_COMPARISON, abs_lt]
    have h31 : RankedBefore ⟨1, 2876821 / 20000000, 3⟩
        ⟨3, 359605501821 / 2500000000000, 1⟩ → False := by
      norm_num [RankedBefore, INACCURACY_OF_COMPARISON, le_abs]
    cases l with
    | nil => exact absurd hperm.length_eq (by simp)
    | cons x rest =>
      rw [List.pairwise_cons] at hpw
      have hmem : ∀ d : Document,
          d ∈ ([⟨1, 2876821 / 20000000, 3⟩, ⟨2, 719208126821 / 5000000000000, 2⟩,
                ⟨3, 359605501821 / 2500000000000, 1⟩] : List Document) →
          d ≠ x → d ∈ rest := by
        intro d hd hne
        rcases List.mem_cons.mp (hperm.symm.subset hd) with h | h
        · exact absurd h hne
        · exact h
      have hx := hperm.subset (List.mem_cons_self x rest)
      simp only [List.mem_cons, List.mem_singleton, List.not_mem_nil, or_false] at hx
      rcases hx with rfl | rfl | rfl
      · exact h31 (hpw.1 _ (hmem _ (by simp) (by simp)))
      · exact h12 (hpw.1 _ (hmem _ (by simp) (by simp)))
      · exact h23 (hpw.1 _ (hmem _ (by simp) (by simp)))

/-! ## Document remover -/

/-- C9. `RemoveDocument` of an absent id returns the state unchanged (id set,
metadata, forward and backward index), and a second `RemoveDocument` of the same
id leaves the state the first call produced. -/
theorem RemoveDocument_absent (s : State) (document_id : Int) :
    (Absent s document_id → RemoveDocument s document_id = some s) ∧
    (∀ s', RemoveDocument s document_id = some s' →
      RemoveDocument s' document_id = some s') := by
  constructor
  · intro h
    unfold RemoveDocument
    rw [h.2.2.1]
  · intro s' h
    unfold RemoveDocument at h
    cases hf : Map.find s.document_to_word_freqs_ document_id with
    | none =>
      simp only [hf, Option.some.injEq] at h
      subst h
      unfold RemoveDocument
      rw [hf]
    | some word_freqs =>
      simp only [hf] at h
      cases he : erasePostings document_id (Map.keys word_freqs) s.word_to_document_freqs_ with
      | none => simp [he] at h
      | some fwd =>
        simp only [he, Option.some.injEq] at h
        subst h
        unfold RemoveDocument
        simp only [Map.find_erase, if_true]

theorem petsServer_remove_1 : RemoveDocument petsServer 1 = some petsServerWithout1 := by
  simp [RemoveDocument, petsServer, petsServerWithout1, Map.find, erasePostings, Map.keys,
    Map.modify, Map.erase]

/-- Witness of C9: id 7 is absent from the server of the specification
example, and document 1 is removed from it twice. -/
theorem RemoveDocument_absent_witness :
    Absent petsServer 7 ∧ RemoveDocument petsServer 7 = some petsServer ∧
    RemoveDocument petsServer 1 = some petsServerWithout1 ∧
    RemoveDocument petsServerWithout1 1 = some petsServerWithout1 :=
  have habs : Absent petsServer 7 := by
    refine ⟨by simp [petsServer], by simp [petsServer, Map.find],
      by simp [petsServer, Map.find], ?_⟩
    intro w
    simp only [postingList, petsServer, Map.find]
    split_ifs <;> simp [Map.keys]
  ⟨habs, (RemoveDocument_absent petsServer 7).1 habs, petsServer_remove_1,
   (RemoveDocument_absent petsServer 1).2 petsServerWithout1 petsServer_remove_1⟩

/-- C10, at the failing input.  Document 1 of `wordlessServer` is in the id set
and has metadata, and `RemoveDocument(1)` returns the server unchanged: the id
stays in the id set and keeps its metadata, and the document count stays 1. -/
theorem RemoveDocument_keeps_wordless :
    (1 : Int) ∈ wordlessServer.document_ids_ ∧
    RemoveDocument wordlessServer 1 = some wordlessServer ∧
    (∀ s', RemoveDocument wordlessServer 1 = some s' →
      (1 : Int) ∈ s'.document_ids_ ∧
      Map.find s'.documents_ 1 = some ⟨5, DocumentStatus.ACTUAL, "and"⟩ ∧
      GetDocumentCount s' = 1) := by
  have h : RemoveDocument wordlessServer 1 = some wordlessServer := by
    simp [RemoveDocument, wordlessServer, Map.find]
  refine ⟨by simp [wordlessServer], h, ?_⟩
  intro s' hs'
  rw [h, Option.some.injEq] at hs'
  subst hs'
  simp [wordlessServer, Map.find, GetDocumentCount]

/-! ## The parallel relevance engine -/

theorem petsServer_find_all_par :
    FindAllDocumentsPar lnTable idHash petsServer ⟨["cat", "dog"], ["bird"]⟩ anyDocument =
      some [⟨1, 3465736 / 10000000, 5⟩, ⟨2, 0, 3⟩] := by
  simp [FindAllDocumentsPar, plusPassPar, minusPassPar, eraseAllPar, accumulateWordPar,
    ConcurrentMap.create, ConcurrentMap.Erase, ConcurrentMap.addAt,
    ConcurrentMap.modifyBucket, ConcurrentMap.BuildOrdinaryMap, Map.insert, List.replicate,
    buildResult, petsServer, Map.find, Map.erase, Map.addAt, ComputeWordInverseDocumentFreq,
    GetDocumentCount, lnTable, anyDocument, idHash]
  norm_num

theorem modifyBucket_fixed (f : Map Int ℚ → Map Int ℚ) (buckets : List (Map Int ℚ))
    (hf : ∀ b ∈ buckets, f b = b) :
    ∀ i, ConcurrentMap.modifyBucket f buckets i = buckets := by
  induction buckets with
  | nil => intro i; rfl
  | cons b rest ih =>
    intro i
    cases i with
    | zero => simp [ConcurrentMap.modifyBucket, hf b (List.mem_cons_self _ _)]
    | succ j =>
      simp [ConcurrentMap.modifyBucket,
        ih (fun c hc => hf c (List.mem_cons_of_mem _ hc)) j]

theorem Erase_create (hash : Int → Nat) (n : Nat) (key : Int) :
    ConcurrentMap.Erase hash (ConcurrentMap.create n) key = ConcurrentMap.create n := by
  unfold ConcurrentMap.Erase ConcurrentMap.create
  simp only
  rw [modifyBucket_fixed]
  intro b hb
  rw [List.eq_of_mem_replicate hb]
  rfl

theorem eraseAllPar_create (hash : Int → Nat) (n : Nat) (posting : Map Int ℚ) :
    eraseAllPar hash (ConcurrentMap.create n) posting = ConcurrentMap.create n := by
  induction posting with
  | nil => rfl
  | cons p rest ih =>
    obtain ⟨a, tf⟩ := p
    simp only [eraseAllPar, Erase_create, ih]

/-- The minus pass of the parallel `FindAllDocuments` runs on the accumulator
as constructed, which holds no key: it leaves it as it is, for every index and
every list of minus words. -/
theorem minusPassPar_create (hash : Int → Nat) (s : State) (n : Nat) (ms : List String) :
    minusPassPar hash s ms (ConcurrentMap.create n) = ConcurrentMap.create n := by
  induction ms with
  | nil => rfl
  | cons m rest ih =>
    simp only [minusPassPar]
    cases Map.find s.word_to_document_freqs_ m with
    | none => exact ih
    | some posting => simp only [eraseAllPar_create, ih]

/-- C1, at the failing input.  On the server of the specification example and
the query "cat dog -bird", the sequential `FindAllDocuments` returns document 1
alone and the parallel one returns documents 1 and 2: the two results differ,
and document 2 is excluded by the first and not by the second. -/
theorem FindAllDocumentsPar_differs :
    FindAllDocuments lnTable petsServer ⟨["cat", "dog"], ["bird"]⟩ anyDocument =
      some [⟨1, 3465736 / 10000000, 5⟩] ∧
    FindAllDocumentsPar lnTable idHash petsServer ⟨["cat", "dog"], ["bird"]⟩ anyDocument =
      some [⟨1, 3465736 / 10000000, 5⟩, ⟨2, 0, 3⟩] ∧
    FindAllDocumentsPar lnTable idHash petsServer ⟨["cat", "dog"], ["bird"]⟩ anyDocument ≠
      FindAllDocuments lnTable petsServer ⟨["cat", "dog"], ["bird"]⟩ anyDocument := by
  refine ⟨petsServer_find_all, petsServer_find_all_par, ?_⟩
  rw [petsServer_find_all, petsServer_find_all_par]
  simp

/-- C3, at the failing input.  On the server of the specification example and
the query "cat dog -bird", document 2 is in the posting list of the minus word
"bird", and the parallel `FindAllDocuments` returns it, through its plus word
"dog". -/
theorem FindAllDocumentsPar_returns_minus :
    "bird" ∈ (Query.mk ["cat", "dog"] ["bird"]).minus_words ∧
    (2 : Int) ∈ Map.keys (postingList petsServer "bird") ∧
    (2 : Int) ∈ Map.keys (postingList petsServer "dog") ∧
    ∃ docs, FindAllDocumentsPar lnTable idHash petsServer ⟨["cat", "dog"], ["bird"]⟩
        anyDocument = some docs ∧ (2 : Int) ∈ docs.map Document.id := by
  refine ⟨by simp, by simp [postingList, petsServer, Map.find, Map.keys],
    by simp [postingList, petsServer, Map.find, Map.keys], _, petsServer_find_all_par, ?_⟩
  simp

/-! ## Removal of an indexed document -/

theorem Map.find_modify {K V : Type} [DecidableEq K] (m : Map K V) (k : K) (f : V → V)
    (k' : K) :
    Map.find (Map.modify m k f) k' =
      if k' = k then (Map.find m k').map f else Map.find m k' := by
  induction m with
  | nil => simp [Map.modify, Map.find]
  | cons p rest ih =>
    obtain ⟨a, b⟩ := p
    by_cases hak : a = k
    · have hcons : Map.modify ((a, b) :: rest) k f = (a, f b) :: Map.modify rest k f := by
        simp [Map.modify, hak]
      rw [hcons]
      subst hak
      by_cases hk : a = k'
      · subst hk
        simp [Map.find]
      · have hk' : k' ≠ a := fun e => hk e.symm
        simp only [Map.find, hk, if_false, ih, hk']
    · have hcons : Map.modify ((a, b) :: rest) k f = (a, b) :: Map.modify rest k f := by
        simp [Map.modify, hak]
      rw [hcons]
      by_cases hk : a = k'
      · subst hk
        simp [Map.find, hak]
      · simp only [Map.find, hk, if_false, ih]

theorem Map.erase_erase {K V : Type} [DecidableEq K] (m : Map K V) (k : K) :
    Map.erase (Map.erase m k) k = Map.erase m k := by
  simp [Map.erase, List.filter_filter]

theorem erasePostings_find (document_id : Int) (words : List String) :
    ∀ (fwd fwd' : Map String (Map Int ℚ)),
    erasePostings document_id words fwd = some fwd' → ∀ w,
      Map.find fwd' w =
        (Map.find fwd w).map
          (fun posting => if w ∈ words then Map.erase posting document_id else posting) := by
  induction words with
  | nil =>
    intro fwd fwd' h w
    simp only [erasePostings, Option.some.injEq] at h
    subst h
    simp
  | cons word rest ih =>
    intro fwd fwd' h w
    simp only [erasePostings] at h
    cases hf : Map.find fwd word with
    | none => simp [hf] at h
    | some posting =>
      simp only [hf] at h
      rw [ih _ _ h w, Map.find_modify]
      by_cases hw : w = word
      · subst hw
        cases Map.find fwd w with
        | none => simp
        | some p =>
          by_cases hr : w ∈ rest
          · simp [hr, Map.erase_erase]
          · simp [hr]
      · cases Map.find fwd w with
        | none => simp
        | some p => simp [hw]

/-- For a document that has a backward-index entry listing every word whose
posting list holds it, a `RemoveDocument` that returns leaves the id in no
posting list, without backward entry, without metadata and out of the id
set. -/
theorem RemoveDocument_removes_indexed (s s' : State) (document_id : Int)
    (word_freqs : Map String ℚ)
    (hb : Map.find s.document_to_word_freqs_ document_id = some word_freqs)
    (hcons : ∀ w, document_id ∈ Map.keys (postingList s w) → w ∈ Map.keys word_freqs)
    (h : RemoveDocument s document_id = some s') :
    Absent s' document_id := by
  unfold RemoveDocument at h
  simp only [hb] at h
  cases he : erasePostings document_id (Map.keys word_freqs) s.word_to_document_freqs_ with
  | none => simp [he] at h
  | some fwd =>
    simp only [he, Option.some.injEq] at h
    subst h
    refine ⟨by simp, by simp [Map.find_erase], by simp [Map.find_erase], ?_⟩
    intro w hmem
    simp only [postingList] at hmem
    rw [erasePostings_find _ _ _ _ he w] at hmem
    have hcw := hcons w
    simp only [postingList] at hcw
    cases hfw : Map.find s.word_to_document_freqs_ w with
    | none => simp [hfw, Map.keys] at hmem
    | some p =>
      simp only [hfw, Option.map_some', Option.getD_some] at hmem hcw
      by_cases hin : w ∈ Map.keys word_freqs
      · simp only [hin, if_true] at hmem
        exact ((Map.mem_keys_erase p document_id document_id).mp hmem).2 rfl
      · simp only [hin, if_false] at hmem
        exact hin (hcw hmem)

/-! ## Effect of RemoveDocument on each structure -/

theorem Map.keys_modify {K V : Type} [DecidableEq K] (m : Map K V) (k : K) (f : V → V) :
    Map.keys (Map.modify m k f) = Map.keys m := by
  induction m with
  | nil => rfl
  | cons p rest ih =>
    obtain ⟨a, b⟩ := p
    simp only [Map.keys, Map.modify, List.map_cons] at ih ⊢
    rw [ih]
    split_ifs <;> rfl

theorem erasePostings_keys (document_id : Int) (words : List String) :
    ∀ (fwd fwd' : Map String (Map Int ℚ)),
    erasePostings document_id words fwd = some fwd' → Map.keys fwd' = Map.keys fwd := by
  induction words with
  | nil =>
    intro fwd fwd' h
    simp only [erasePostings, Option.some.injEq] at h
    rw [h]
  | cons word rest ih =>
    intro fwd fwd' h
    simp only [erasePostings] at h
    cases hf : Map.find fwd word with
    | none => simp [hf] at h
    | some posting =>
      simp only [hf] at h
      rw [ih _ _ h, Map.keys_modify]

theorem erasePostings_isSome (document_id : Int) (words : List String) :
    ∀ (fwd : Map String (Map Int ℚ)),
    (∀ w ∈ words, Map.find fwd w ≠ none) →
    ∃ fwd', erasePostings document_id words fwd = some fwd' := by
  induction words with
  | nil => intro fwd _; exact ⟨fwd, rfl⟩
  | cons word rest ih =>
    intro fwd hall
    simp only [erasePostings]
    cases hf : Map.find fwd word with
    | none => exact absurd hf (hall word (List.mem_cons_self _ _))
    | some posting =>
      simp only
      apply ih
      intro w hw
      rw [Map.find_modify]
      have hne := hall w (List.mem_cons_of_mem _ hw)
      split_ifs
      · cases hfw : Map.find fwd w with
        | none => exact absurd hfw hne
        | some p => simp
      · exact hne

theorem RemoveDocument_cases (s s' : State) (document_id : Int)
    (h : RemoveDocument s document_id = some s') :
    (Map.find s.document_to_word_freqs_ document_id = none ∧ s' = s) ∨
    (∃ word_freqs fwd,
      Map.find s.document_to_word_freqs_ document_id = some word_freqs ∧
      erasePostings document_id (Map.keys word_freqs) s.word_to_document_freqs_ = some fwd ∧
      s' = { s with
        word_to_document_freqs_ := fwd
        documents_ := Map.erase s.documents_ document_id
        document_ids_ := s.document_ids_.filter (fun d => decide (d ≠ document_id))
        document_to_word_freqs_ := Map.erase s.document_to_word_freqs_ document_id }) := by
  unfold RemoveDocument at h
  cases hf : Map.find s.document_to_word_freqs_ document_id with
  | none =>
    simp only [hf, Option.some.injEq] at h
    exact Or.inl ⟨rfl, h.symm⟩
  | some word_freqs =>
    simp only [hf] at h
    cases he : erasePostings document_id (Map.keys word_freqs) s.word_to_document_freqs_ with
    | none => simp [he] at h
    | some fwd =>
      simp only [he, Option.some.injEq] at h
      exact Or.inr ⟨word_freqs, fwd, rfl, he, h.symm⟩

theorem RemoveDocument_backward (s s' : State) (document_id : Int)
    (h : RemoveDocument s document_id = some s') (d : Int) :
    Map.find s'.document_to_word_freqs_ d =
      if d = document_id then none else Map.find s.document_to_word_freqs_ d := by
  rcases RemoveDocument_cases s s' document_id h with ⟨hn, rfl⟩ | ⟨wf, fwd, hb, he, rfl⟩
  · split_ifs with hd
    · rw [hd, hn]
    · rfl
  · simp only [Map.find_erase]

theorem RemoveDocument_GetWordFrequencies (s s' : State) (document_id : Int)
    (h : RemoveDocument s document_id = some s') (d : Int) :
    GetWordFrequencies s' d = if d = document_id then [] else GetWordFrequencies s d := by
  unfold GetWordFrequencies
  rw [RemoveDocument_backward s s' document_id h d]
  split_ifs <;> rfl

theorem RemoveDocument_documents (s s' : State) (document_id : Int)
    (h : RemoveDocument s document_id = some s') (d : Int) (hd : d ≠ document_id) :
    Map.find s'.documents_ d = Map.find s.documents_ d := by
  rcases RemoveDocument_cases s s' document_id h with ⟨hn, rfl⟩ | ⟨wf, fwd, hb, he, rfl⟩
  · rfl
  · simp only [Map.find_erase, hd, if_false]

theorem RemoveDocument_ids (s s' : State) (document_id : Int)
    (h : RemoveDocument s document_id = some s') (d : Int) (hd : d ≠ document_id) :
    d ∈ s'.document_ids_ ↔ d ∈ s.document_ids_ := by
  rcases RemoveDocument_cases s s' document_id h with ⟨hn, rfl⟩ | ⟨wf, fwd, hb, he, rfl⟩
  · rfl
  · simp [hd]

theorem RemoveDocument_postingList (s s' : State) (document_id : Int)
    (h : RemoveDocument s document_id = some s') (w : String) :
    postingList s' w =
      if w ∈ Map.keys (GetWordFrequencies s document_id)
      then Map.erase (postingList s w) document_id else postingList s w := by
  rcases RemoveDocument_cases s s' document_id h with ⟨hn, rfl⟩ | ⟨wf, fwd, hb, he, rfl⟩
  · simp [GetWordFrequencies, hn, Map.keys]
  · simp only [postingList, GetWordFrequencies, hb, Option.getD_some]
    rw [erasePostings_find _ _ _ _ he w]
    cases Map.find s.word_to_document_freqs_ w with
    | none => simp [Map.erase]
    | some p => split_ifs <;> simp [*]

theorem RemoveDocument_forward_keys (s s' : State) (document_id : Int)
    (h : RemoveDocument s document_id = some s') :
    Map.keys s'.word_to_document_freqs_ = Map.keys s.word_to_document_freqs_ := by
  rcases RemoveDocument_cases s s' document_id h with ⟨hn, rfl⟩ | ⟨wf, fwd, hb, he, rfl⟩
  · rfl
  · exact erasePostings_keys _ _ _ _ he

theorem forward_find_of_consistent (s : State) (hc : Consistent s) (document_id : Int)
    (w : String) (hw : w ∈ Map.keys (GetWordFrequencies s document_id)) :
    Map.find s.word_to_document_freqs_ w ≠ none := by
  obtain ⟨tf, htf⟩ := (Map.find_isSome_iff _ w).mpr hw
  have hfw := (hc w document_id tf).mpr htf
  intro hnone
  simp [postingList, hnone, Map.find] at hfw

theorem RemoveDocument_isSome_of_consistent (s : State) (hc : Consistent s)
    (document_id : Int) : ∃ s', RemoveDocument s document_id = some s' := by
  unfold RemoveDocument
  cases hf : Map.find s.document_to_word_freqs_ document_id with
  | none => exact ⟨s, rfl⟩
  | some word_freqs =>
    simp only
    have hgw : GetWordFrequencies s document_id = word_freqs := by
      simp [GetWordFrequencies, hf]
    obtain ⟨fwd, hfwd⟩ := erasePostings_isSome document_id (Map.keys word_freqs)
      s.word_to_document_freqs_
      (fun w hw => forward_find_of_consistent s hc document_id w (hgw ▸ hw))
    rw [hfwd]
    exact ⟨_, rfl⟩

theorem RemoveDocument_consistent (s s' : State) (document_id : Int)
    (hc : Consistent s) (h : RemoveDocument s document_id = some s') : Consistent s' := by
  intro w d tf
  rw [RemoveDocument_GetWordFrequencies s s' document_id h d,
    RemoveDocument_postingList s s' document_id h w]
  by_cases hd : d = document_id
  · subst hd
    simp only [if_true, Map.find]
    constructor
    · intro hl
      exfalso
      by_cases hw : w ∈ Map.keys (GetWordFrequencies s d)
      · simp [hw, Map.find_erase] at hl
      · simp only [hw, if_false] at hl
        exact hw ((Map.find_isSome_iff _ w).mp ⟨tf, (hc w d tf).mp hl⟩)
    · intro hr
      cases hr
  · simp only [hd, if_false]
    rw [← hc w d tf]
    split_ifs
    · simp [Map.find_erase, hd]
    · rfl
/-! ## Removal: consistency, frame and lookups -/

theorem accumulateWord_isSome (s : State) (pred : DocumentPredicate) (idf : ℚ)
    (posting : Map Int ℚ) (hmeta : ∀ id ∈ Map.keys posting, Map.find s.documents_ id ≠ none) :
    ∀ rel, ∃ rel', accumulateWord s pred idf posting rel = some rel' := by
  induction posting with
  | nil => intro rel; exact ⟨rel, rfl⟩
  | cons p rest ih =>
    obtain ⟨a, tf⟩ := p
    intro rel
    simp only [accumulateWord]
    cases hfa : Map.find s.documents_ a with
    | none => exact absurd hfa (hmeta a (by simp [Map.keys]))
    | some data =>
      simp only
      exact ih (fun id hid => hmeta id (by
        simp only [Map.keys, List.map_cons, List.mem_cons]
        exact Or.inr hid)) _

theorem plusPass_isSome (ln : ℚ → ℚ) (s : State) (pred : DocumentPredicate)
    (hmeta : ∀ w, ∀ id ∈ Map.keys (postingList s w), Map.find s.documents_ id ≠ none)
    (ws : List String) : ∀ rel, ∃ rel', plusPass ln s pred ws rel = some rel' := by
  induction ws with
  | nil => intro rel; exact ⟨rel, rfl⟩
  | cons w rest ih =>
    intro rel
    simp only [plusPass]
    cases hf : Map.find s.word_to_document_freqs_ w with
    | none => exact ih rel
    | some posting =>
      simp only
      have hp := postingList_of_find hf
      obtain ⟨rel1, h1⟩ := accumulateWord_isSome s pred
        (ComputeWordInverseDocumentFreq ln s w) posting (hp ▸ hmeta w) rel
      rw [h1]
      exact ih rel1

theorem buildResult_isSome (s : State) (m : Map Int ℚ)
    (hmeta : ∀ id ∈ Map.keys m, Map.find s.documents_ id ≠ none) :
    ∃ docs, buildResult s m = some docs := by
  induction m with
  | nil => exact ⟨[], rfl⟩
  | cons p rest ih =>
    obtain ⟨a, r⟩ := p
    simp only [buildResult]
    cases hfa : Map.find s.documents_ a with
    | none => exact absurd hfa (hmeta a (by simp [Map.keys]))
    | some data =>
      obtain ⟨docs, hd⟩ := ih (fun id hid => hmeta id (by
        simp only [Map.keys, List.map_cons, List.mem_cons]
        exact Or.inr hid))
      simp only [hd]
      exact ⟨_, rfl⟩

theorem find_documents_of_accepts (s : State) (pred : DocumentPredicate) (id : Int)
    (h : accepts s pred id = true) : Map.find s.documents_ id ≠ none := by
  unfold accepts at h
  intro hn
  simp [hn] at h

theorem petsServer_consistent : Consistent petsServer := by
  intro w d tf
  simp only [postingList, GetWordFrequencies, petsServer, Map.find]
  split_ifs <;> subst_vars <;> simp_all [Map.find]

theorem petsServerWithout1_consistent : Consistent petsServerWithout1 := by
  intro w d tf
  simp only [postingList, GetWordFrequencies, petsServerWithout1, Map.find]
  split_ifs <;> subst_vars <;> simp_all [Map.find]

theorem petsServer_metadata :
    ∀ w, ∀ id ∈ Map.keys (postingList petsServer w), Map.find petsServer.documents_ id ≠ none := by
  intro w id hid
  simp only [postingList, petsServer, Map.find] at hid ⊢
  split_ifs at hid <;> simp [Map.keys] at hid <;> rcases hid with rfl | rfl <;> simp

/-- C11. `RemoveDocument` preserves forward/backward consistency: on a
consistent server the call returns, for every id, and the server it leaves is
consistent. -/
theorem RemoveDocument_preserves_consistency (s : State) (document_id : Int)
    (hc : Consistent s) :
    ∃ s', RemoveDocument s document_id = some s' ∧ Consistent s' := by
  obtain ⟨s', hs'⟩ := RemoveDocument_isSome_of_consistent s hc document_id
  exact ⟨s', hs', RemoveDocument_consistent s s' document_id hc hs'⟩

/-- Witness of C11: removal of document 1 from the server of the specification
example. -/
theorem RemoveDocument_preserves_consistency_witness :
    Consistent petsServer ∧
    ∃ s', RemoveDocument petsServer 1 = some s' ∧ Consistent s' :=
  ⟨petsServer_consistent,
   RemoveDocument_preserves_consistency petsServer 1 petsServer_consistent⟩

/-- C17. `RemoveDocument(id)` leaves every other document as it was: for
`d ≠ id` the metadata of `d`, the backward-index entry of `d`, the term frequency
of `d` in the posting list of every word, and the membership of `d` in the id
set are the same before and after the call. -/
theorem RemoveDocument_frame (s s' : State) (document_id d : Int)
    (h : RemoveDocument s document_id = some s') (hd : d ≠ document_id) :
    Map.find s'.documents_ d = Map.find s.documents_ d ∧
    Map.find s'.document_to_word_freqs_ d = Map.find s.document_to_word_freqs_ d ∧
    (∀ w, Map.find (postingList s' w) d = Map.find (postingList s w) d) ∧
    (d ∈ s'.document_ids_ ↔ d ∈ s.document_ids_) := by
  refine ⟨RemoveDocument_documents s s' document_id h d hd, ?_, ?_,
    RemoveDocument_ids s s' document_id h d hd⟩
  · rw [RemoveDocument_backward s s' document_id h d, if_neg hd]
  · intro w
    rw [RemoveDocument_postingList s s' document_id h w]
    split_ifs
    · simp [Map.find_erase, hd]
    · rfl

/-- Witness of C17: removal of document 1 from the server of the specification
example leaves document 2 as it was. -/
theorem RemoveDocument_frame_witness :
    RemoveDocument petsServer 1 = some petsServerWithout1 ∧
    Map.find petsServerWithout1.documents_ 2 = Map.find petsServer.documents_ 2 ∧
    Map.find petsServerWithout1.document_to_word_freqs_ 2 =
      Map.find petsServer.document_to_word_freqs_ 2 ∧
    (∀ w, Map.find (postingList petsServerWithout1 w) 2 =
      Map.find (postingList petsServer w) 2) ∧
    ((2 : Int) ∈ petsServerWithout1.document_ids_ ↔ (2 : Int) ∈ petsServer.document_ids_) :=
  ⟨petsServer_remove_1,
   RemoveDocument_frame petsServer petsServerWithout1 1 2 petsServer_remove_1 (by decide)⟩

/-- C18. `RemoveDocument` removes no word key from the forward index: the keys
are the same, in the same order, before and after the call; and a word of the
removed document whose posting list held that document alone stays keyed,
with an empty posting list. -/
theorem RemoveDocument_keeps_words (s s' : State) (document_id : Int)
    (h : RemoveDocument s document_id = some s') :
    Map.keys s'.word_to_document_freqs_ = Map.keys s.word_to_document_freqs_ ∧
    (∀ w tf, w ∈ Map.keys (GetWordFrequencies s document_id) →
      Map.find s.word_to_document_freqs_ w = some [(document_id, tf)] →
      Map.find s'.word_to_document_freqs_ w = some []) := by
  refine ⟨RemoveDocument_forward_keys s s' document_id h, ?_⟩
  intro w tf hw hfw
  rcases RemoveDocument_cases s s' document_id h with ⟨hn, rfl⟩ | ⟨wf, fwd, hb, he, rfl⟩
  · simp [GetWordFrequencies, hn, Map.keys] at hw
  · have hw' : w ∈ Map.keys wf := by
      simpa [GetWordFrequencies, hb] using hw
    simp only
    rw [erasePostings_find _ _ _ _ he w, hfw]
    simp [hw', Map.erase]

/-- Witness of C18: after removal of document 1 from the server of the
specification example the word "cat" is still keyed, with no document. -/
theorem RemoveDocument_keeps_words_witness :
    RemoveDocument petsServer 1 = some petsServerWithout1 ∧
    Map.keys petsServerWithout1.word_to_document_freqs_ =
      Map.keys petsServer.word_to_document_freqs_ ∧
    (∀ w tf, w ∈ Map.keys (GetWordFrequencies petsServer 1) →
      Map.find petsServer.word_to_document_freqs_ w = some [(1, tf)] →
      Map.find petsServerWithout1.word_to_document_freqs_ w = some []) ∧
    Map.find petsServer.word_to_document_freqs_ "cat" = some [(1, 1 / 2)] ∧
    Map.find petsServerWithout1.word_to_document_freqs_ "cat" = some [] :=
  ⟨petsServer_remove_1,
   (RemoveDocument_keeps_words petsServer petsServerWithout1 1 petsServer_remove_1).1,
   (RemoveDocument_keeps_words petsServer petsServerWithout1 1 petsServer_remove_1).2,
   by simp [petsServer, Map.find], by simp [petsServerWithout1, Map.find]⟩

/-- C19. When every document id of every posting list has a metadata entry,
the sequential `FindAllDocuments` returns for every parsed query and every
predicate: no `documents_.at` throws.  On a consistent server every word of the
backward-index entry of a document is a key of the forward index, and
`RemoveDocument` returns for every id: no `find` yields the end iterator. -/
theorem lookups_never_fail (ln : ℚ → ℚ) (s : State) :
    ((∀ w, ∀ id ∈ Map.keys (postingList s w), Map.find s.documents_ id ≠ none) →
      ∀ (query : Query) (pred : DocumentPredicate),
        ∃ docs, FindAllDocuments ln s query pred = some docs) ∧
    (Consistent s → ∀ document_id : Int,
      (∀ w ∈ Map.keys (GetWordFrequencies s document_id),
        Map.find s.word_to_document_freqs_ w ≠ none) ∧
      ∃ s', RemoveDocument s document_id = some s') := by
  constructor
  · intro hmeta query pred
    unfold FindAllDocuments
    obtain ⟨rel, hrel⟩ := plusPass_isSome ln s pred hmeta query.plus_words []
    rw [hrel]
    simp only
    apply buildResult_isSome
    intro id hid
    have h1 := ((mem_keys_minusPass s query.minus_words rel id).mp hid).1
    have h2 := (plusPass_keys ln s pred _ _ _ hrel id).mp h1
    simp only [Map.keys, List.map_nil, List.not_mem_nil, false_or] at h2
    exact find_documents_of_accepts s pred id h2.2
  · intro hc document_id
    exact ⟨fun w hw => forward_find_of_consistent s hc document_id w hw,
      RemoveDocument_isSome_of_consistent s hc document_id⟩

/-- Witness of C19 on the server of the specification example. -/
theorem lookups_never_fail_witness :
    (∀ w, ∀ id ∈ Map.keys (postingList petsServer w),
      Map.find petsServer.documents_ id ≠ none) ∧
    Consistent petsServer ∧
    (∃ docs, FindAllDocuments lnTable petsServer ⟨["cat", "dog"], ["bird"]⟩ anyDocument =
      some docs) ∧
    (∀ w ∈ Map.keys (GetWordFrequencies petsServer 1),
      Map.find petsServer.word_to_document_freqs_ w ≠ none) ∧
    ∃ s', RemoveDocument petsServer 1 = some s' :=
  ⟨petsServer_metadata, petsServer_consistent,
   (lookups_never_fail lnTable petsServer).1 petsServer_metadata
     ⟨["cat", "dog"], ["bird"]⟩ anyDocument,
   ((lookups_never_fail lnTable petsServer).2 petsServer_consistent 1).1,
   ((lookups_never_fail lnTable petsServer).2 petsServer_consistent 1).2⟩

/-! ## The parallel engine: keys of the accumulator -/

theorem Map.mem_keys_insert (m : Map Int ℚ) (k : Int) (v : ℚ) (k' : Int) :
    k' ∈ Map.keys (Map.insert m k v) ↔ k' = k ∨ k' ∈ Map.keys m := by
  induction m with
  | nil => simp [Map.insert, Map.keys]
  | cons p rest ih =>
    obtain ⟨a, b⟩ := p
    simp only [Map.insert]
    split_ifs with h1 h2
    · simp [Map.keys]
    · subst h2
      simp [Map.keys]
    · simp only [Map.keys, List.map_cons, List.mem_cons] at ih ⊢
      rw [ih]
      tauto

theorem Map.sorted_insert (m : Map Int ℚ) (k : Int) (v : ℚ)
    (h : (Map.keys m).Pairwise (· < ·)) : (Map.keys (Map.insert m k v)).Pairwise (· < ·) := by
  induction m with
  | nil => simp [Map.insert, Map.keys]
  | cons p rest ih =>
    obtain ⟨a, b⟩ := p
    simp only [Map.keys, List.map_cons, List.pairwise_cons] at h
    simp only [Map.insert]
    split_ifs with h1 h2
    · simp only [Map.keys, List.map_cons, List.pairwise_cons, List.mem_cons]
      refine ⟨?_, h⟩
      rintro x (rfl | hx)
      · exact h1
      · exact lt_trans h1 (h.1 x hx)
    · simpa [Map.keys] using h
    · have hlt : a < k := lt_of_le_of_ne (not_lt.mp h1) (fun e => h2 e.symm)
      simp only [Map.keys, List.map_cons, List.pairwise_cons]
      refine ⟨?_, ih h.2⟩
      intro x hx
      rcases (Map.mem_keys_insert rest k v x).mp hx with rfl | hx'
      · exact hlt
      · exact h.1 x hx'

theorem insertAll_sorted (b : Map Int ℚ) : ∀ acc : Map Int ℚ,
    (Map.keys acc).Pairwise (· < ·) →
    (Map.keys (b.foldl (fun acc p => Map.insert acc p.1 p.2) acc)).Pairwise (· < ·) := by
  induction b with
  | nil => intro acc h; exact h
  | cons p rest ih =>
    intro acc h
    exact ih _ (Map.sorted_insert acc p.1 p.2 h)

theorem insertAll_keys (b : Map Int ℚ) : ∀ (acc : Map Int ℚ) (k : Int),
    k ∈ Map.keys (b.foldl (fun acc p => Map.insert acc p.1 p.2) acc) ↔
      k ∈ Map.keys acc ∨ k ∈ Map.keys b := by
  induction b with
  | nil => intro acc k; simp [Map.keys]
  | cons p rest ih =>
    intro acc k
    simp only [List.foldl_cons]
    rw [ih, Map.mem_keys_insert]
    simp only [Map.keys, List.map_cons, List.mem_cons]
    tauto

theorem mergeBuckets_sorted (buckets : List (Map Int ℚ)) : ∀ acc : Map Int ℚ,
    (Map.keys acc).Pairwise (· < ·) →
    (Map.keys (buckets.foldl
      (fun acc b => b.foldl (fun acc p => Map.insert acc p.1 p.2) acc) acc)).Pairwise
      (· < ·) := by
  induction buckets with
  | nil => intro acc h; exact h
  | cons b rest ih =>
    intro acc h
    exact ih _ (insertAll_sorted b acc h)

theorem mergeBuckets_keys (buckets : List (Map Int ℚ)) : ∀ (acc : Map Int ℚ) (k : Int),
    k ∈ Map.keys (buckets.foldl
      (fun acc b => b.foldl (fun acc p => Map.insert acc p.1 p.2) acc) acc) ↔
      k ∈ Map.keys acc ∨ ∃ b ∈ buckets, k ∈ Map.keys b := by
  induction buckets with
  | nil => intro acc k; simp
  | cons b rest ih =>
    intro acc k
    simp only [List.foldl_cons]
    rw [ih, insertAll_keys]
    simp only [List.mem_cons, exists_eq_or_imp]
    tauto

theorem BuildOrdinaryMap_sorted (cm : ConcurrentMap) :
    (Map.keys (ConcurrentMap.BuildOrdinaryMap cm)).Pairwise (· < ·) :=
  mergeBuckets_sorted cm.buckets [] (by simp [Map.keys])

theorem BuildOrdinaryMap_keys (cm : ConcurrentMap) (k : Int) :
    k ∈ Map.keys (ConcurrentMap.BuildOrdinaryMap cm) ↔ ∃ b ∈ cm.buckets, k ∈ Map.keys b := by
  unfold ConcurrentMap.BuildOrdinaryMap
  rw [mergeBuckets_keys]
  simp [Map.keys]

theorem mem_modifyBucket (f : Map Int ℚ → Map Int ℚ) (buckets : List (Map Int ℚ)) :
    ∀ (i : Nat) (b' : Map Int ℚ), b' ∈ ConcurrentMap.modifyBucket f buckets i →
      b' ∈ buckets ∨ ∃ b ∈ buckets, b' = f b := by
  induction buckets with
  | nil => intro i b' h; simp [ConcurrentMap.modifyBucket] at h
  | cons b rest ih =>
    intro i b' h
    cases i with
    | zero =>
      simp only [ConcurrentMap.modifyBucket, List.mem_cons] at h
      rcases h with rfl | h
      · exact Or.inr ⟨b, List.mem_cons_self _ _, rfl⟩
      · exact Or.inl (List.mem_cons_of_mem _ h)
    | succ j =>
      simp only [ConcurrentMap.modifyBucket, List.mem_cons] at h
      rcases h with rfl | h
      · exact Or.inl (List.mem_cons_self _ _)
      · rcases ih j b' h with h1 | ⟨c, hc, rfl⟩
        · exact Or.inl (List.mem_cons_of_mem _ h1)
        · exact Or.inr ⟨c, List.mem_cons_of_mem _ hc, rfl⟩

theorem addAt_bucket_keys (hash : Int → Nat) (cm : ConcurrentMap) (key : Int) (v : ℚ)
    (k : Int) (h : ∃ b ∈ (ConcurrentMap.addAt hash cm key v).buckets, k ∈ Map.keys b) :
    k = key ∨ ∃ b ∈ cm.buckets, k ∈ Map.keys b := by
  obtain ⟨b', hb', hk⟩ := h
  rcases mem_modifyBucket _ _ _ _ hb' with h1 | ⟨b, hb, rfl⟩
  · exact Or.inr ⟨b', h1, hk⟩
  · rcases (Map.mem_keys_addAt b key v k).mp hk with h2 | h2
    · exact Or.inl h2
    · exact Or.inr ⟨b, hb, h2⟩

theorem accumulateWordPar_keys (hash : Int → Nat) (s : State) (pred : DocumentPredicate)
    (idf : ℚ) (posting : Map Int ℚ) : ∀ (cm cm' : ConcurrentMap),
    accumulateWordPar hash s pred idf posting cm = some cm' → ∀ k : Int,
      (∃ b ∈ cm'.buckets, k ∈ Map.keys b) →
      (∃ b ∈ cm.buckets, k ∈ Map.keys b) ∨ accepts s pred k = true := by
  induction posting with
  | nil =>
    intro cm cm' h k hk
    simp only [accumulateWordPar, Option.some.injEq] at h
    subst h
    exact Or.inl hk
  | cons p rest ih =>
    obtain ⟨a, tf⟩ := p
    intro cm cm' h k hk
    simp only [accumulateWordPar] at h
    cases hfa : Map.find s.documents_ a with
    | none => simp [hfa] at h
    | some data =>
      simp only [hfa] at h
      have hacc : accepts s pred a = pred a data.status data.rating := by
        simp [accepts, hfa]
      rcases ih _ _ h k hk with h1 | h1
      · by_cases hp : pred a data.status data.rating = true
        · simp only [hp, if_true] at h1
          rcases addAt_bucket_keys hash cm a _ k h1 with rfl | h2
          · exact Or.inr (by rw [hacc, hp])
          · exact Or.inl h2
        · simp only [hp] at h1
          exact Or.inl h1
      · exact Or.inr h1

theorem plusPassPar_keys (ln : ℚ → ℚ) (hash : Int → Nat) (s : State)
    (pred : DocumentPredicate) (ws : List String) : ∀ (cm cm' : ConcurrentMap),
    plusPassPar ln hash s pred ws cm = some cm' → ∀ k : Int,
      (∃ b ∈ cm'.buckets, k ∈ Map.keys b) →
      (∃ b ∈ cm.buckets, k ∈ Map.keys b) ∨ accepts s pred k = true := by
  induction ws with
  | nil =>
    intro cm cm' h k hk
    simp only [plusPassPar, Option.some.injEq] at h
    subst h
    exact Or.inl hk
  | cons w rest ih =>
    intro cm cm' h k hk
    simp only [plusPassPar] at h
    cases hf : Map.find s.word_to_document_freqs_ w with
    | none =>
      simp only [hf] at h
      exact ih _ _ h k hk
    | some posting =>
      simp only [hf] at h
      cases ha : accumulateWordPar hash s pred (ComputeWordInverseDocumentFreq ln s w)
          posting cm with
      | none => simp [ha] at h
      | some cm1 =>
        simp only [ha] at h
        rcases ih _ _ h k hk with h1 | h1
        · exact accumulateWordPar_keys hash s pred _ posting cm cm1 ha k h1
        · exact Or.inr h1

theorem FindAllDocumentsWith_accepts (ln : ℚ → ℚ) (hash : Int → Nat)
    (policy : ExecutionPolicy) (s : State) (query : Query) (pred : DocumentPredicate)
    (all : List Document)
    (h : FindAllDocumentsWith ln hash policy s query pred = some all) :
    ∀ d ∈ all, accepts s pred d.id = true := by
  intro d hd
  have hmem : d.id ∈ all.map Document.id := List.mem_map.mpr ⟨d, hd, rfl⟩
  cases policy with
  | seq =>
    simp only [FindAllDocumentsWith] at h
    exact ((mem_FindAllDocuments_iff ln s query pred all h d.id).mp hmem).1
  | par =>
    simp only [FindAllDocumentsWith, FindAllDocumentsPar] at h
    cases hp : plusPassPar ln hash s pred query.plus_words
        (minusPassPar hash s query.minus_words (ConcurrentMap.create 16)) with
    | none => simp [hp] at h
    | some cm =>
      simp only [hp] at h
      rw [buildResult_ids s _ all h, BuildOrdinaryMap_keys] at hmem
      rw [minusPassPar_create] at hp
      rcases plusPassPar_keys ln hash s pred _ _ _ hp d.id hmem with ⟨b, hb, hk⟩ | h1
      · simp only [ConcurrentMap.create] at hb
        rw [List.eq_of_mem_replicate hb] at hk
        simp [Map.keys] at hk
      · exact h1

theorem FindAllDocumentsWith_sorted (ln : ℚ → ℚ) (hash : Int → Nat)
    (policy : ExecutionPolicy) (s : State) (query : Query) (pred : DocumentPredicate)
    (all : List Document)
    (h : FindAllDocumentsWith ln hash policy s query pred = some all) :
    (all.map Document.id).Pairwise (· < ·) := by
  cases policy with
  | seq =>
    simp only [FindAllDocumentsWith, FindAllDocuments] at h
    cases hp : plusPass ln s pred query.plus_words [] with
    | none => simp [hp] at h
    | some rel =>
      simp only [hp] at h
      rw [buildResult_ids s _ all h]
      have hsorted : (Map.keys rel).Pairwise (· < ·) :=
        plusPass_sorted ln s pred _ _ _ hp (by simp [Map.keys])
      exact hsorted.sublist ((minusPass_sublist s query.minus_words rel).map Prod.fst)
  | par =>
    simp only [FindAllDocumentsWith, FindAllDocumentsPar] at h
    cases hp : plusPassPar ln hash s pred query.plus_words
        (minusPassPar hash s query.minus_words (ConcurrentMap.create 16)) with
    | none => simp [hp] at h
    | some cm =>
      simp only [hp] at h
      rw [buildResult_ids s _ all h]
      exact BuildOrdinaryMap_sorted cm
/-! ## Status filter and order of the results -/

theorem FindTopDocuments_of_some (ln : ℚ → ℚ) (hash : Int → Nat) (policy : ExecutionPolicy)
    (s : State) (query : Query) (pred : DocumentPredicate) (top : List Document)
    (h : FindTopDocuments ln hash policy s query pred = some top) :
    ∃ all, FindAllDocumentsWith ln hash policy s query pred = some all ∧
      top = (sort compareDocuments all).take 5 := by
  rw [FindTopDocuments_eq] at h
  cases hall : FindAllDocumentsWith ln hash policy s query pred with
  | none => simp [hall] at h
  | some all =>
    simp only [hall, Option.map_some', Option.some.injEq] at h
    exact ⟨all, rfl, h.symm⟩

/-- C13. The overload of `FindTopDocuments` with a status `s` is the search
with the predicate "the status of the document equals `s`", and every document
it returns has the stored status `s`; the overload without filter is the search
with the status `ACTUAL`. -/
theorem FindTopDocuments_by_status (ln : ℚ → ℚ) (hash : Int → Nat) (policy : ExecutionPolicy)
    (s : State) (query : Query) (status : DocumentStatus) :
    FindTopDocumentsByStatus ln hash policy s query status =
      FindTopDocuments ln hash policy s query
        (fun _ new_status _ => decide (new_status = status)) ∧
    (∀ top, FindTopDocumentsByStatus ln hash policy s query status = some top →
      ∀ d ∈ top, ∃ data, Map.find s.documents_ d.id = some data ∧ data.status = status) ∧
    FindTopDocumentsActual ln hash policy s query =
      FindTopDocumentsByStatus ln hash policy s query DocumentStatus.ACTUAL := by
  refine ⟨rfl, ?_, rfl⟩
  intro top htop d hd
  unfold FindTopDocumentsByStatus at htop
  obtain ⟨all, hall, rfl⟩ := FindTopDocuments_of_some ln hash policy s query _ _ htop
  have hdall : d ∈ all :=
    (sort_perm compareDocuments all).subset ((List.take_sublist _ _).subset hd)
  have hacc := FindAllDocumentsWith_accepts ln hash policy s query _ all hall d hdall
  unfold accepts at hacc
  cases hf : Map.find s.documents_ d.id with
  | none => simp [hf] at hacc
  | some data =>
    simp only [hf, decide_eq_true_eq] at hacc
    exact ⟨data, rfl, hacc⟩

theorem petsServer_top_actual :
    FindTopDocumentsByStatus lnTable idHash ExecutionPolicy.seq petsServer
      ⟨["cat", "dog"], ["bird"]⟩ DocumentStatus.ACTUAL =
      some [⟨1, 3465736 / 10000000, 5⟩] := by
  unfold FindTopDocumentsByStatus
  rw [FindTopDocuments_eq]
  have h : FindAllDocuments lnTable petsServer ⟨["cat", "dog"], ["bird"]⟩
      (fun _ new_status _ => decide (new_status = DocumentStatus.ACTUAL)) =
      some [⟨1, 3465736 / 10000000, 5⟩] := by
    simp [FindAllDocuments, plusPass, minusPass, buildResult, petsServer, Map.find,
      accumulateWord, eraseAll, Map.erase, Map.addAt, ComputeWordInverseDocumentFreq,
      GetDocumentCount, lnTable]
    norm_num
  simp only [FindAllDocumentsWith, h, Option.map_some']
  simp [sort, orderedInsert]

/-- Witness of C13 on the server of the specification example, query
"cat dog -bird", status `ACTUAL`. -/
theorem FindTopDocuments_by_status_witness :
    FindTopDocumentsByStatus lnTable idHash ExecutionPolicy.seq petsServer
      ⟨["cat", "dog"], ["bird"]⟩ DocumentStatus.ACTUAL =
      some [⟨1, 3465736 / 10000000, 5⟩] ∧
    ∀ d ∈ ([⟨1, 3465736 / 10000000, 5⟩] : List Document),
      ∃ data, Map.find petsServer.documents_ d.id = some data ∧
        data.status = DocumentStatus.ACTUAL :=
  ⟨petsServer_top_actual,
   (FindTopDocuments_by_status lnTable idHash ExecutionPolicy.seq petsServer
     ⟨["cat", "dog"], ["bird"]⟩ DocumentStatus.ACTUAL).2.1 _ petsServer_top_actual⟩

/-- C20. The list returned by `FindAllDocuments`, sequential or parallel, is
in strictly ascending order of document id, so no id occurs twice in it, nor in
the list `FindTopDocuments` returns. -/
theorem FindAllDocuments_ascending (ln : ℚ → ℚ) (hash : Int → Nat) (s : State)
    (query : Query) (pred : DocumentPredicate) :
    (∀ docs, FindAllDocuments ln s query pred = some docs →
      (docs.map Document.id).Pairwise (· < ·) ∧ (docs.map Document.id).Nodup) ∧
    (∀ docs, FindAllDocumentsPar ln hash s query pred = some docs →
      (docs.map Document.id).Pairwise (· < ·) ∧ (docs.map Document.id).Nodup) ∧
    (∀ policy top, FindTopDocuments ln hash policy s query pred = some top →
      (top.map Document.id).Nodup) := by
  have hnd : ∀ l : List Int, l.Pairwise (· < ·) → l.Nodup :=
    fun l hl => hl.imp (fun hab => ne_of_lt hab)
  refine ⟨?_, ?_, ?_⟩
  · intro docs h
    have hs := FindAllDocumentsWith_sorted ln hash ExecutionPolicy.seq s query pred docs
      (by simpa [FindAllDocumentsWith] using h)
    exact ⟨hs, hnd _ hs⟩
  · intro docs h
    have hs := FindAllDocumentsWith_sorted ln hash ExecutionPolicy.par s query pred docs
      (by simpa [FindAllDocumentsWith] using h)
    exact ⟨hs, hnd _ hs⟩
  · intro policy top htop
    obtain ⟨all, hall, rfl⟩ := FindTopDocuments_of_some ln hash policy s query pred _ htop
    have hs := hnd _ (FindAllDocumentsWith_sorted ln hash policy s query pred all hall)
    have hperm : ((sort compareDocuments all).map Document.id).Perm (all.map Document.id) :=
      (sort_perm compareDocuments all).map _
    exact (hperm.nodup_iff.mpr hs).sublist ((List.take_sublist 5 _).map _)

/-- Witness of C20 on the server of the specification example, query
"cat dog -bird", for both engines. -/
theorem FindAllDocuments_ascending_witness :
    FindAllDocuments lnTable petsServer ⟨["cat", "dog"], ["bird"]⟩ anyDocument =
      some [⟨1, 3465736 / 10000000, 5⟩] ∧
    FindAllDocumentsPar lnTable idHash petsServer ⟨["cat", "dog"], ["bird"]⟩ anyDocument =
      some [⟨1, 3465736 / 10000000, 5⟩, ⟨2, 0, 3⟩] ∧
    ((([⟨1, 3465736 / 10000000, 5⟩] : List Document).map Document.id).Pairwise (· < ·) ∧
      (([⟨1, 3465736 / 10000000, 5⟩] : List Document).map Document.id).Nodup) ∧
    ((([⟨1, 3465736 / 10000000, 5⟩, ⟨2, 0, 3⟩] : List Document).map Document.id).Pairwise
        (· < ·) ∧
      (([⟨1, 3465736 / 10000000, 5⟩, ⟨2, 0, 3⟩] : List Document).map Document.id).Nodup) :=
  ⟨petsServer_find_all, petsServer_find_all_par,
   (FindAllDocuments_ascending lnTable idHash petsServer ⟨["cat", "dog"], ["bird"]⟩
     anyDocument).1 _ petsServer_find_all,
   (FindAllDocuments_ascending lnTable idHash petsServer ⟨["cat", "dog"], ["bird"]⟩
     anyDocument).2.1 _ petsServer_find_all_par⟩

/-! ## Construction: empty stop words -/

theorem mem_emplace (l : List String) (str x : String) :
    x ∈ emplace l str ↔ x = str ∨ x ∈ l := by
  induction l with
  | nil => simp [emplace]
  | cons y rest ih =>
    simp only [emplace]
    split_ifs with h1 h2
    · simp
    · subst h2
      simp
    · simp only [List.mem_cons, ih]
      tauto

theorem mem_foldl_emplace (strings : List String) : ∀ (acc : List String) (x : String),
    x ∈ strings.foldl
        (fun non_empty_strings str =>
          if str ≠ "" then emplace non_empty_strings str else non_empty_strings) acc ↔
      x ∈ acc ∨ (x ∈ strings ∧ x ≠ "") := by
  induction strings with
  | nil => intro acc x; simp
  | cons str rest ih =>
    intro acc x
    simp only [List.foldl_cons]
    rw [ih]
    by_cases hs : str = ""
    · subst hs
      simp only [ne_eq, not_true_eq_false, if_false, List.mem_cons]
      constructor
      · rintro (h | ⟨h1, h2⟩)
        · exact Or.inl h
        · exact Or.inr ⟨Or.inr h1, h2⟩
      · rintro (h | ⟨h1 | h1, h2⟩)
        · exact Or.inl h
        · exact absurd h1 h2
        · exact Or.inr ⟨h1, h2⟩
    · simp only [ne_eq, hs, not_false_eq_true, if_true, mem_emplace, List.mem_cons]
      constructor
      · rintro ((rfl | h) | ⟨h1, h2⟩)
        · exact Or.inr ⟨Or.inl rfl, hs⟩
        · exact Or.inl h
        · exact Or.inr ⟨Or.inr h1, h2⟩
      · rintro (h | ⟨rfl | h1, h2⟩)
        · exact Or.inl (Or.inr h)
        · exact Or.inl (Or.inl rfl)
        · exact Or.inr ⟨h1, h2⟩

theorem mem_MakeUniqueNonEmptyStrings (strings : List String) (x : String) :
    x ∈ MakeUniqueNonEmptyStrings strings ↔ x ∈ strings ∧ x ≠ "" := by
  unfold MakeUniqueNonEmptyStrings
  rw [mem_foldl_emplace]
  simp

/-- C12, as amended.  The constructor ignores the empty strings of the
stop-word collection: it returns a server whose stop words are exactly the
non-empty strings of the collection when each of these is a valid word, and
throws `invalid_argument` when one of them is not. -/
theorem construct_ignores_empty (valid : String → Bool) (stop_words : List String) :
    ((∀ w ∈ stop_words, w ≠ "" → valid w = true) →
      ∃ server, construct valid stop_words = Except.ok server ∧
        (∀ w, w ∈ server.stop_words_ ↔ w ∈ stop_words ∧ w ≠ "") ∧
        server.document_ids_ = [] ∧ server.documents_ = [] ∧
        server.word_to_document_freqs_ = [] ∧ server.document_to_word_freqs_ = []) ∧
    ((∃ w ∈ stop_words, w ≠ "" ∧ valid w = false) →
      construct valid stop_words = Except.error Exception.invalid_argument) := by
  constructor
  · intro hall
    have hv : (MakeUniqueNonEmptyStrings stop_words).all valid = true := by
      rw [List.all_eq_true]
      intro w hw
      obtain ⟨h1, h2⟩ := (mem_MakeUniqueNonEmptyStrings stop_words w).mp hw
      exact hall w h1 h2
    refine ⟨{ document_ids_ := []
              documents_ := []
              stop_words_ := MakeUniqueNonEmptyStrings stop_words
              word_to_document_freqs_ := []
              document_to_word_freqs_ := [] }, ?_, ?_, rfl, rfl, rfl, rfl⟩
    · simp only [construct, hv, Bool.not_true, Bool.false_eq_true, if_false]
    · intro w
      exact mem_MakeUniqueNonEmptyStrings stop_words w
  · rintro ⟨w, hw, hne, hinv⟩
    have hv : (MakeUniqueNonEmptyStrings stop_words).all valid = false := by
      rw [List.all_eq_false]
      exact ⟨w, (mem_MakeUniqueNonEmptyStrings stop_words w).mpr ⟨hw, hne⟩, by simp [hinv]⟩
    simp only [construct, hv, Bool.not_false, if_true]

/-- Witness of C12 as amended: the collection of the empty string and "and" is
accepted, and the collection of the empty string and a word with a control
character is rejected. -/
theorem construct_ignores_empty_witness :
    (∃ server, construct IsValidWord ["", "and"] = Except.ok server ∧
      (∀ w, w ∈ server.stop_words_ ↔ w ∈ ["", "and"] ∧ w ≠ "") ∧
      server.document_ids_ = [] ∧ server.documents_ = [] ∧
      server.word_to_document_freqs_ = [] ∧ server.document_to_word_freqs_ = []) ∧
    construct IsValidWord ["", "a\x01b"] = Except.error Exception.invalid_argument :=
  ⟨(construct_ignores_empty IsValidWord ["", "and"]).1 (by
      intro w hw hne
      simp only [List.mem_cons, List.mem_singleton, List.not_mem_nil, or_false] at hw
      rcases hw with rfl | rfl
      · exact absurd rfl hne
      · decide),
   (construct_ignores_empty IsValidWord ["", "a\x01b"]).2
     ⟨"a\x01b", by simp, by decide, by decide⟩⟩

/-- Counterexample to C12: the construction from the stop-word collection of
the empty string and "and" does not fail; it returns the server with the
single stop word "and". -/
theorem construct_accepts_empty_string :
    "" ∈ ["", "and"] ∧
    construct IsValidWord ["", "and"] =
      Except.ok
        { document_ids_ := []
          documents_ := []
          stop_words_ := ["and"]
          word_to_document_freqs_ := []
          document_to_word_freqs_ := [] } ∧
    construct IsValidWord ["", "and"] ≠ Except.error Exception.invalid_argument := by
  have h : construct IsValidWord ["", "and"] =
      Except.ok
        { document_ids_ := []
          documents_ := []
          stop_words_ := ["and"]
          word_to_document_freqs_ := []
          document_to_word_freqs_ := [] } := by
    simp [construct, MakeUniqueNonEmptyStrings, emplace, IsValidWord]
  refine ⟨by simp, h, ?_⟩
  rw [h]
  simp

/-! ## Batch query processing -/

theorem transform_spec (op : String → Option (List Document)) (queries : List String) :
    ∀ (i : Nat) (answers out : List (List Document)),
    transform op queries i answers = some out → i + queries.length ≤ answers.length →
    ∃ results, List.Forall₂ (fun q docs => op q = some docs) queries results ∧
      out = answers.take i ++ results ++ answers.drop (i + queries.length) := by
  induction queries with
  | nil =>
    intro i answers out h _
    simp only [transform, Option.some.injEq] at h
    subst h
    exact ⟨[], List.Forall₂.nil, by simp⟩
  | cons q rest ih =>
    intro i answers out h hlen
    simp only [transform] at h
    cases hq : op q with
    | none => simp [hq] at h
    | some docs =>
      simp only [hq] at h
      simp only [List.length_cons] at hlen
      have hi : i < answers.length := by omega
      obtain ⟨results, hres, hout⟩ := ih (i + 1) (answers.set i docs) out h
        (by rw [List.length_set]; omega)
      refine ⟨docs :: results, List.Forall₂.cons hq hres, ?_⟩
      rw [hout, List.set_eq_take_append_cons_drop, if_pos hi]
      have h1 : (answers.take i ++ docs :: answers.drop (i + 1)).take (i + 1) =
          answers.take i ++ [docs] := by
        rw [List.take_append_eq_append_take]
        simp [List.length_take, Nat.min_eq_left (le_of_lt hi)]
      have h2 : (answers.take i ++ docs :: answers.drop (i + 1)).drop (i + 1 + rest.length) =
          answers.drop (i + (rest.length + 1)) := by
        rw [List.drop_append_eq_append_drop]
        simp only [List.length_take, Nat.min_eq_left (le_of_lt hi)]
        have e1 : i + 1 + rest.length - i = rest.length + 1 := by omega
        rw [e1, List.drop_succ_cons, List.drop_drop,
          List.drop_eq_nil_of_le (by simp [List.length_take]; omega)]
        simp only [List.nil_append]
        congr 1
        omega
      rw [h1, h2]
      simp

theorem transform_isSome (op : String → Option (List Document)) (queries : List String)
    (hall : ∀ q ∈ queries, ∃ docs, op q = some docs) :
    ∀ (i : Nat) (answers : List (List Document)),
    ∃ out, transform op queries i answers = some out := by
  induction queries with
  | nil => intro i answers; exact ⟨answers, rfl⟩
  | cons q rest ih =>
    intro i answers
    obtain ⟨docs, hd⟩ := hall q (List.mem_cons_self _ _)
    simp only [transform, hd]
    exact ih (fun q' hq' => hall q' (List.mem_cons_of_mem _ hq')) _ _

theorem foldl_append_eq_flatten (answers : List (List Document)) :
    ∀ acc : List Document,
    answers.foldl (fun results doc => results ++ doc) acc = acc ++ answers.flatten := by
  induction answers with
  | nil => intro acc; simp
  | cons a rest ih =>
    intro acc
    simp only [List.foldl_cons, ih, List.flatten_cons, List.append_assoc]

theorem ProcessQueries_spec (ParseQuery : String → Option Query) (ln : ℚ → ℚ)
    (hash : Int → Nat) (search_server : State) (queries : List String)
    (answers : List (List Document))
    (h : ProcessQueries ParseQuery ln hash search_server queries = some answers) :
    List.Forall₂ (fun q docs => FindTopDocumentsRaw ParseQuery ln hash search_server q = some docs)
      queries answers := by
  unfold ProcessQueries at h
  obtain ⟨results, hres, hout⟩ := transform_spec _ queries 0 _ answers h (by simp)
  have hdrop : (List.replicate queries.length ([] : List Document)).drop
      (0 + queries.length) = [] := by
    apply List.drop_eq_nil_of_le
    simp
  rw [hdrop] at hout
  simp only [List.take_zero, List.nil_append, List.append_nil] at hout
  rw [hout]
  exact hres
theorem forall₂_getElem? {α β : Type} (R : α → β → Prop) (l₁ : List α) (l₂ : List β)
    (h : List.Forall₂ R l₁ l₂) :
    ∀ (i : Nat) (a : α), l₁[i]? = some a → ∃ b, l₂[i]? = some b ∧ R a b := by
  induction h with
  | nil => intro i a hi; simp at hi
  | cons hab _ ih =>
    intro i a hi
    cases i with
    | zero =>
      simp only [List.getElem?_cons_zero, Option.some.injEq] at hi
      subst hi
      exact ⟨_, by simp, hab⟩
    | succ j =>
      simp only [List.getElem?_cons_succ] at hi ⊢
      exact ih j a hi

/-- C14. `ProcessQueries` returns, when it returns, one answer per query: the
list has the length of the list of queries and its entry at each position is
what `FindTopDocuments` returns for the query at that position; and
`ProcessQueriesJoined` returns the concatenation of these answers in the order
of the queries.  `ProcessQueries` returns whenever `FindTopDocuments` returns
for every query. -/
theorem ProcessQueries_answers (ParseQuery : String → Option Query) (ln : ℚ → ℚ)
    (hash : Int → Nat) (search_server : State) (queries : List String) :
    (∀ answers, ProcessQueries ParseQuery ln hash search_server queries = some answers →
      answers.length = queries.length ∧
      (∀ (i : Nat) (q : String), queries[i]? = some q →
        ∃ docs, answers[i]? = some docs ∧
          FindTopDocumentsRaw ParseQuery ln hash search_server q = some docs) ∧
      ProcessQueriesJoined ParseQuery ln hash search_server queries =
        some answers.flatten) ∧
    ((∀ q ∈ queries, ∃ docs,
        FindTopDocumentsRaw ParseQuery ln hash search_server q = some docs) →
      ∃ answers, ProcessQueries ParseQuery ln hash search_server queries = some answers) := by
  constructor
  · intro answers h
    have hall := ProcessQueries_spec ParseQuery ln hash search_server queries answers h
    refine ⟨hall.length_eq.symm, forall₂_getElem? _ _ _ hall, ?_⟩
    simp only [ProcessQueriesJoined, h, foldl_append_eq_flatten, List.nil_append]
  · intro hall
    exact transform_isSome _ queries hall 0 _

theorem petsServer_process_queries :
    ProcessQueries singleWordQuery lnTable idHash petsServer ["cat", "dog"] =
      some [[⟨1, 3465736 / 10000000, 5⟩], [⟨1, 0, 5⟩, ⟨2, 0, 3⟩]] := by
  have hcat : FindTopDocumentsRaw singleWordQuery lnTable idHash petsServer "cat" =
      some [⟨1, 3465736 / 10000000, 5⟩] := by
    simp only [FindTopDocumentsRaw, singleWordQuery, FindTopDocumentsActual,
      FindTopDocumentsByStatus]
    rw [FindTopDocuments_eq]
    have h : FindAllDocuments lnTable petsServer ⟨["cat"], []⟩
        (fun _ new_status _ => decide (new_status = DocumentStatus.ACTUAL)) =
        some [⟨1, 3465736 / 10000000, 5⟩] := by
      simp [FindAllDocuments, plusPass, minusPass, buildResult, petsServer, Map.find,
        accumulateWord, Map.addAt, ComputeWordInverseDocumentFreq, GetDocumentCount, lnTable]
      norm_num
    simp only [FindAllDocumentsWith, h, Option.map_some']
    simp [sort, orderedInsert]
  have hdog : FindTopDocumentsRaw singleWordQuery lnTable idHash petsServer "dog" =
      some [⟨1, 0, 5⟩, ⟨2, 0, 3⟩] := by
    simp only [FindTopDocumentsRaw, singleWordQuery, FindTopDocumentsActual,
      FindTopDocumentsByStatus]
    rw [FindTopDocuments_eq]
    have h : FindAllDocuments lnTable petsServer ⟨["dog"], []⟩
        (fun _ new_status _ => decide (new_status = DocumentStatus.ACTUAL)) =
        some [⟨1, 0, 5⟩, ⟨2, 0, 3⟩] := by
      simp [FindAllDocuments, plusPass, minusPass, buildResult, petsServer, Map.find,
        accumulateWord, Map.addAt, ComputeWordInverseDocumentFreq, GetDocumentCount, lnTable]
      norm_num
    simp only [FindAllDocumentsWith, h, Option.map_some']
    norm_num [sort, orderedInsert, compareDocuments, INACCURACY_OF_COMPARISON]
  simp [ProcessQueries, transform, hcat, hdog]

/-- Witness of C14 on the server of the specification example, with the
queries "cat" and "dog". -/
theorem ProcessQueries_answers_witness :
    ProcessQueries singleWordQuery lnTable idHash petsServer ["cat", "dog"] =
      some [[⟨1, 3465736 / 10000000, 5⟩], [⟨1, 0, 5⟩, ⟨2, 0, 3⟩]] ∧
    ([[⟨1, 3465736 / 10000000, 5⟩], [⟨1, 0, 5⟩, ⟨2, 0, 3⟩]] :
      List (List Document)).length = ["cat", "dog"].length ∧
    (∀ (i : Nat) (q : String), ["cat", "dog"][i]? = some q →
      ∃ docs, ([[⟨1, 3465736 / 10000000, 5⟩], [⟨1, 0, 5⟩, ⟨2, 0, 3⟩]] :
          List (List Document))[i]? = some docs ∧
        FindTopDocumentsRaw singleWordQuery lnTable idHash petsServer q = some docs) ∧
    ProcessQueriesJoined singleWordQuery lnTable idHash petsServer ["cat", "dog"] =
      some ([[⟨1, 3465736 / 10000000, 5⟩], [⟨1, 0, 5⟩, ⟨2, 0, 3⟩]] :
        List (List Document)).flatten :=
  ⟨petsServer_process_queries,
   (ProcessQueries_answers singleWordQuery lnTable idHash petsServer ["cat", "dog"]).1 _
     petsServer_process_queries⟩

/-! ## The comparator as an ordering -/

theorem compareDocuments_irrefl (a : Document) : compareDocuments a a = false := by
  have hpos : (0 : ℚ) < INACCURACY_OF_COMPARISON := by norm_num [INACCURACY_OF_COMPARISON]
  simp [compareDocuments, hpos]

theorem compareDocuments_asymm (a b : Document) (h : compareDocuments a b = true) :
    compareDocuments b a = false := by
  unfold compareDocuments at h ⊢
  rw [abs_sub_comm b.relevance a.relevance]
  by_cases hc : |a.relevance - b.relevance| < INACCURACY_OF_COMPARISON
  · simp only [hc, if_true, decide_eq_true_eq, gt_iff_lt] at h
    simp only [hc, if_true, decide_eq_false_iff_not, gt_iff_lt, not_lt]
    exact le_of_lt h
  · simp only [hc, if_false, decide_eq_true_eq, gt_iff_lt] at h
    simp only [hc, if_false, decide_eq_false_iff_not, gt_iff_lt, not_lt]
    exact le_of_lt h

/-- C16, as amended.  The comparison `FindTopDocuments` sorts with is
irreflexive and asymmetric, and it is a strict weak ordering of every list of
documents whose relevances pairwise differ by at least 1e-6, on which it is the
order by decreasing relevance. -/
theorem compareDocuments_strict_weak_when_apart :
    (∀ a : Document, compareDocuments a a = false) ∧
    (∀ a b : Document, compareDocuments a b = true → compareDocuments b a = false) ∧
    (∀ l : List Document,
      l.Pairwise (fun a b => INACCURACY_OF_COMPARISON ≤ |a.relevance - b.relevance|) →
      StrictWeakOn compareDocuments l ∧
      ∀ a ∈ l, ∀ b ∈ l, (compareDocuments a b = true ↔ a.relevance > b.relevance)) := by
  refine ⟨compareDocuments_irrefl, compareDocuments_asymm, ?_⟩
  intro l hl
  refine ⟨strictWeakOn_of_apart l hl, ?_⟩
  intro a ha b hb
  rw [compareDocuments_of_apart a b (apart_all l hl a ha b hb)]
  simp

/-- Witness of C16 as amended, on six documents with relevances more than 1e-6
apart. -/
theorem compareDocuments_strict_weak_when_apart_witness :
    ([⟨1, 2876821 / 10000000, 1⟩, ⟨2, 2876821 / 20000000, 2⟩,
      ⟨3, 2876821 / 30000000, 3⟩, ⟨4, 2876821 / 40000000, 4⟩,
      ⟨5, 2876821 / 50000000, 5⟩, ⟨6, 2876821 / 60000000, 6⟩] : List Document).Pairwise
      (fun a b => INACCURACY_OF_COMPARISON ≤ |a.relevance - b.relevance|) ∧
    StrictWeakOn compareDocuments
      [⟨1, 2876821 / 10000000, 1⟩, ⟨2, 2876821 / 20000000, 2⟩,
       ⟨3, 2876821 / 30000000, 3⟩, ⟨4, 2876821 / 40000000, 4⟩,
       ⟨5, 2876821 / 50000000, 5⟩, ⟨6, 2876821 / 60000000, 6⟩] :=
  ⟨eightServer_apart, (compareDocuments_strict_weak_when_apart.2.2 _ eightServer_apart).1⟩

/-- Counterexample to C16.  For the documents a, b, c of relevances 0, 0.6e-6
and 1.2e-6 and ratings 3, 2, 1, a goes before b and b before c, and c goes
before a: the comparison is not transitive.  For the documents x, y, z of the
same relevances and equal ratings, x and y are incomparable, y and z are
incomparable, and z goes before x: incomparability is not transitive. -/
theorem compareDocuments_not_strict_weak :
    (compareDocuments ⟨1, 0, 3⟩ ⟨2, 6 / 10000000, 2⟩ = true ∧
      compareDocuments ⟨2, 6 / 10000000, 2⟩ ⟨3, 12 / 10000000, 1⟩ = true ∧
      compareDocuments ⟨1, 0, 3⟩ ⟨3, 12 / 10000000, 1⟩ = false ∧
      compareDocuments ⟨3, 12 / 10000000, 1⟩ ⟨1, 0, 3⟩ = true) ∧
    (compareDocuments ⟨1, 0, 1⟩ ⟨2, 6 / 10000000, 1⟩ = false ∧
      compareDocuments ⟨2, 6 / 10000000, 1⟩ ⟨1, 0, 1⟩ = false ∧
      compareDocuments ⟨2, 6 / 10000000, 1⟩ ⟨3, 12 / 10000000, 1⟩ = false ∧
      compareDocuments ⟨3, 12 / 10000000, 1⟩ ⟨2, 6 / 10000000, 1⟩ = false ∧
      compareDocuments ⟨3, 12 / 10000000, 1⟩ ⟨1, 0, 1⟩ = true) ∧
    ¬ StrictWeakOn compareDocuments
      [⟨1, 0, 3⟩, ⟨2, 6 / 10000000, 2⟩, ⟨3, 12 / 10000000, 1⟩] := by
  have h1 : compareDocuments ⟨1, 0, 3⟩ ⟨2, 6 / 10000000, 2⟩ = true := by
    norm_num [compareDocuments, INACCURACY_OF_COMPARISON, abs_lt]
  have h2 : compareDocuments ⟨2, 6 / 10000000, 2⟩ ⟨3, 12 / 10000000, 1⟩ = true := by
    norm_num [compareDocuments, INACCURACY_OF_COMPARISON, abs_lt]
  have h3 : compareDocuments ⟨1, 0, 3⟩ ⟨3, 12 / 10000000, 1⟩ = false := by
    norm_num [compareDocuments, INACCURACY_OF_COMPARISON, abs_lt]
  refine ⟨⟨h1, h2, h3, ?_⟩, ⟨?_, ?_, ?_, ?_, ?_⟩, ?_⟩
  · norm_num [compareDocuments, INACCURACY_OF_COMPARISON, abs_lt]
  · norm_num [compareDocuments, INACCURACY_OF_COMPARISON, abs_lt]
  · norm_num [compareDocuments, INACCURACY_OF_COMPARISON, abs_lt]
  · norm_num [compareDocuments, INACCURACY_OF_COMPARISON, abs_lt]
  · norm_num [compareDocuments, INACCURACY_OF_COMPARISON, abs_lt]
  · norm_num [compareDocuments, INACCURACY_OF_COMPARISON, abs_lt]
  · intro hswo
    have := hswo.2.1 ⟨1, 0, 3⟩ (by simp) ⟨2, 6 / 10000000, 2⟩ (by simp)
      ⟨3, 12 / 10000000, 1⟩ (by simp) h1 h2
    rw [h3] at this
    cases this

theorem duplicateServer_duplicates :
    findDuplicates duplicateServer duplicateServer.document_ids_ ∅ = [3] := by
  decide

theorem duplicateServer_remove_duplicates :
    RemoveDuplicates duplicateServer = some petsServer := by
  unfold RemoveDuplicates
  rw [duplicateServer_duplicates]
  simp [removeEach, RemoveDocument, duplicateServer, petsServer, Map.find, erasePostings,
    Map.keys, Map.modify, Map.erase]
/-! ## Removal of duplicates -/

theorem findDuplicates_mem (s : State) (ids : List Int) :
    ∀ (docs : Finset (Finset String)), ids.Pairwise (· < ·) → ∀ d : Int,
      (d ∈ findDuplicates s ids docs ↔
        d ∈ ids ∧ (wordSet s d ∈ docs ∨
          ∃ d' ∈ ids, d' < d ∧ wordSet s d' = wordSet s d)) := by
  induction ids with
  | nil => intro docs _ d; simp [findDuplicates]
  | cons a rest ih =>
    intro docs hs d
    rw [List.pairwise_cons] at hs
    simp only [findDuplicates]
    by_cases hin : wordSet s a ∈ docs
    · simp only [hin, not_true_eq_false, if_false, List.mem_cons, ih docs hs.2 d]
      constructor
      · rintro (rfl | ⟨hd, h | ⟨d', hd', hlt, he⟩⟩)
        · exact ⟨Or.inl rfl, Or.inl hin⟩
        · exact ⟨Or.inr hd, Or.inl h⟩
        · exact ⟨Or.inr hd, Or.inr ⟨d', Or.inr hd', hlt, he⟩⟩
      · rintro ⟨rfl | hd, h⟩
        · exact Or.inl rfl
        · rcases h with h | ⟨d', rfl | hd', hlt, he⟩
          · exact Or.inr ⟨hd, Or.inl h⟩
          · exact Or.inr ⟨hd, Or.inl (he ▸ hin)⟩
          · exact Or.inr ⟨hd, Or.inr ⟨d', hd', hlt, he⟩⟩
    · simp only [hin, not_false_eq_true, if_true, List.mem_cons,
        ih (insert (wordSet s a) docs) hs.2 d, Finset.mem_insert]
      constructor
      · rintro ⟨hd, (h | h) | ⟨d', hd', hlt, he⟩⟩
        · exact ⟨Or.inr hd, Or.inr ⟨a, Or.inl rfl, hs.1 d hd, h.symm⟩⟩
        · exact ⟨Or.inr hd, Or.inl h⟩
        · exact ⟨Or.inr hd, Or.inr ⟨d', Or.inr hd', hlt, he⟩⟩
      · rintro ⟨rfl | hd, h⟩
        · exfalso
          rcases h with h | ⟨d', rfl | hd', hlt, _⟩
          · exact hin h
          · exact lt_irrefl _ hlt
          · exact lt_asymm hlt (hs.1 d' hd')
        · refine ⟨hd, ?_⟩
          rcases h with h | ⟨d', rfl | hd', hlt, he⟩
          · exact Or.inl (Or.inr h)
          · exact Or.inl (Or.inl he.symm)
          · exact Or.inr ⟨d', hd', hlt, he⟩

theorem RemoveDocument_ids_all (s s' : State) (document_id : Int)
    (hentry : ∀ d ∈ s.document_ids_, Map.find s.document_to_word_freqs_ d ≠ none)
    (h : RemoveDocument s document_id = some s') (d : Int) :
    d ∈ s'.document_ids_ ↔ d ∈ s.document_ids_ ∧ d ≠ document_id := by
  rcases RemoveDocument_cases s s' document_id h with ⟨hn, rfl⟩ | ⟨wf, fwd, hb, he, rfl⟩
  · constructor
    · intro hd
      refine ⟨hd, ?_⟩
      rintro rfl
      exact hentry d hd hn
    · exact fun hd => hd.1
  · simp

theorem removeEach_spec (dups : List Int) : ∀ (s s' : State),
    (∀ d ∈ s.document_ids_, Map.find s.document_to_word_freqs_ d ≠ none) →
    removeEach dups s = some s' →
    (∀ d, d ∈ s'.document_ids_ ↔ d ∈ s.document_ids_ ∧ d ∉ dups) ∧
    (∀ d, d ∉ dups → GetWordFrequencies s' d = GetWordFrequencies s d) := by
  induction dups with
  | nil =>
    intro s s' _ h
    simp only [removeEach, Option.some.injEq] at h
    subst h
    simp
  | cons id rest ih =>
    intro s s' hentry h
    simp only [removeEach] at h
    cases hr : RemoveDocument s id with
    | none => simp [hr] at h
    | some s1 =>
      simp only [hr] at h
      have hids := RemoveDocument_ids_all s s1 id hentry hr
      have hentry1 : ∀ d ∈ s1.document_ids_,
          Map.find s1.document_to_word_freqs_ d ≠ none := by
        intro d hd
        obtain ⟨hd1, hd2⟩ := (hids d).mp hd
        rw [RemoveDocument_backward s s1 id hr d, if_neg hd2]
        exact hentry d hd1
      obtain ⟨h1, h2⟩ := ih s1 s' hentry1 h
      constructor
      · intro d
        rw [h1 d, hids d]
        simp only [List.mem_cons, not_or]
        tauto
      · intro d hd
        simp only [List.mem_cons, not_or] at hd
        rw [h2 d hd.2, RemoveDocument_GetWordFrequencies s s1 id hr d, if_neg hd.1]

theorem removeEach_isSome (dups : List Int) : ∀ s : State, Consistent s →
    ∃ s', removeEach dups s = some s' := by
  induction dups with
  | nil => intro s _; exact ⟨s, rfl⟩
  | cons id rest ih =>
    intro s hc
    obtain ⟨s1, h1⟩ := RemoveDocument_isSome_of_consistent s hc id
    simp only [removeEach, h1]
    exact ih s1 (RemoveDocument_consistent s s1 id hc h1)

/-- C15. On a server whose id set is in ascending order and whose backward
index has an entry for every document id, the ids left by `RemoveDuplicates`
are exactly the ids `d` for which no smaller id had the same set of words
before the call; no two documents left share a set of words; and each
document of the server has the words of a document that is left, of id not
greater.  On a consistent server `RemoveDuplicates` returns. -/
theorem RemoveDuplicates_keeps_smallest (s : State)
    (hsorted : s.document_ids_.Pairwise (· < ·))
    (hentry : ∀ d ∈ s.document_ids_, Map.find s.document_to_word_freqs_ d ≠ none) :
    (∀ s', RemoveDuplicates s = some s' →
      (∀ d, d ∈ s'.document_ids_ ↔
        d ∈ s.document_ids_ ∧
          ∀ d' ∈ s.document_ids_, d' < d → wordSet s d' ≠ wordSet s d) ∧
      (∀ d1 ∈ s'.document_ids_, ∀ d2 ∈ s'.document_ids_, d1 ≠ d2 →
        wordSet s' d1 ≠ wordSet s' d2) ∧
      (∀ d ∈ s.document_ids_, ∃ d0 ∈ s'.document_ids_,
        d0 ≤ d ∧ wordSet s d0 = wordSet s d)) ∧
    (Consistent s → ∃ s', RemoveDuplicates s = some s') := by
  constructor
  · intro s' h
    unfold RemoveDuplicates at h
    obtain ⟨hids, hwf⟩ := removeEach_spec _ s s' hentry h
    have hdup := findDuplicates_mem s s.document_ids_ ∅ hsorted
    have hkept : ∀ d, d ∈ s'.document_ids_ ↔
        d ∈ s.document_ids_ ∧
          ∀ d' ∈ s.document_ids_, d' < d → wordSet s d' ≠ wordSet s d := by
      intro d
      rw [hids d, hdup d]
      simp only [Finset.not_mem_empty, false_or]
      constructor
      · rintro ⟨hd, hno⟩
        exact ⟨hd, fun d' hd' hlt he => hno ⟨hd, d', hd', hlt, he⟩⟩
      · rintro ⟨hd, hno⟩
        exact ⟨hd, fun ⟨_, d', hd', hlt, he⟩ => hno d' hd' hlt he⟩
    have hws : ∀ d ∈ s'.document_ids_, wordSet s' d = wordSet s d := by
      intro d hd
      unfold wordSet
      rw [hwf d ((hids d).mp hd).2]
    refine ⟨hkept, ?_, ?_⟩
    · intro d1 hd1 d2 hd2 hne heq
      rw [hws d1 hd1, hws d2 hd2] at heq
      rcases lt_or_gt_of_ne hne with hlt | hgt
      · exact ((hkept d2).mp hd2).2 d1 ((hkept d1).mp hd1).1 hlt heq
      · exact ((hkept d1).mp hd1).2 d2 ((hkept d2).mp hd2).1 hgt heq.symm
    · intro d hd
      have hne : (s.document_ids_.toFinset.filter
          (fun x => wordSet s x = wordSet s d)).Nonempty :=
        ⟨d, by simp [hd]⟩
      obtain ⟨d0, hd0, hmin⟩ := Finset.exists_min_image _ (fun x : Int => x) hne
      simp only [Finset.mem_filter, List.mem_toFinset] at hd0 hmin
      refine ⟨d0, (hkept d0).mpr ⟨hd0.1, ?_⟩, hmin d ⟨hd, rfl⟩, hd0.2⟩
      intro d' hd' hlt he
      exact absurd (hmin d' ⟨hd', he.trans hd0.2⟩) (not_le.mpr hlt)
  · intro hc
    exact removeEach_isSome _ s hc

/-- Witness of C15: on the server with documents 1, 2 and 3, where document 3
has the words of document 2, `RemoveDuplicates` leaves documents 1 and 2. -/
theorem RemoveDuplicates_keeps_smallest_witness :
    duplicateServer.document_ids_.Pairwise (· < ·) ∧
    (∀ d ∈ duplicateServer.document_ids_,
      Map.find duplicateServer.document_to_word_freqs_ d ≠ none) ∧
    RemoveDuplicates duplicateServer = some petsServer ∧
    ((∀ d, d ∈ petsServer.document_ids_ ↔
        d ∈ duplicateServer.document_ids_ ∧
          ∀ d' ∈ duplicateServer.document_ids_, d' < d →
            wordSet duplicateServer d' ≠ wordSet duplicateServer d) ∧
      (∀ d1 ∈ petsServer.document_ids_, ∀ d2 ∈ petsServer.document_ids_, d1 ≠ d2 →
        wordSet petsServer d1 ≠ wordSet petsServer d2) ∧
      (∀ d ∈ duplicateServer.document_ids_, ∃ d0 ∈ petsServer.document_ids_,
        d0 ≤ d ∧ wordSet duplicateServer d0 = wordSet duplicateServer d)) :=
  have hsorted : duplicateServer.document_ids_.Pairwise (· < ·) := by
    simp [duplicateServer]
  have hentry : ∀ d ∈ duplicateServer.document_ids_,
      Map.find duplicateServer.document_to_word_freqs_ d ≠ none := by
    intro d hd
    simp only [duplicateServer, List.mem_cons, List.mem_singleton, List.not_mem_nil,
      or_false] at hd
    rcases hd with rfl | rfl | rfl <;> simp [duplicateServer, Map.find]
  ⟨hsorted, hentry, duplicateServer_remove_duplicates,
   (RemoveDuplicates_keeps_smallest duplicateServer hsorted hentry).1 petsServer
     duplicateServer_remove_duplicates⟩

end SearchServer
